import Mathlib

/-!
# Verification of the LZHA/LZMA archiver core

Shallow embedding of the repository's compression and container layer:
`compressor.py` (LZ77), `huffman.py`, `lzma_compressor.py` (range coder and
LZMA state machine) and `format.py` (LZHA container, CRC32 integrity), with
theorems settling the specification's claims about them.

Bytes are modelled as `Nat` (with explicit `< 256` bounds or `% 256`
truncation where the source relies on byte width), byte buffers as
`List Nat`, and Python code that can raise as `Option`-valued functions.
-/

namespace Compressor

/-! ## compressor.py — LZ77 coder

Module-level constants from `compressor.py`. -/

abbrev WINDOW_SIZE : Nat := 32 * 1024
abbrev MIN_MATCH : Nat := 3
abbrev MAX_MATCH : Nat := 258
abbrev HASH_BITS : Nat := 16
abbrev HASH_SIZE : Nat := 1 <<< HASH_BITS

/-- `Token` from `compressor.py`: a tagged literal/match variant.
`TokenType.LITERAL = 0` carries the literal byte, `TokenType.MATCH = 1`
carries `(length, distance)`. -/
inductive Token where
  | literal (b : Nat)
  | matchTok (length distance : Nat)
deriving DecidableEq, Repr

/-- `MatchFinder._hash3`: `((b0*65599 + b1)*65599 + b2) & (HASH_SIZE - 1)`,
returning 0 when fewer than 3 bytes remain at `pos`. -/
def hash3 (data : List Nat) (pos : Nat) : Nat :=
  if pos + 3 > data.length then 0
  else
    let b0 := data.getD pos 0
    let b1 := if pos + 1 < data.length then data.getD (pos + 1) 0 else 0
    let b2 := if pos + 2 < data.length then data.getD (pos + 2) 0 else 0
    ((b0 * 65599 + b1) * 65599 + b2) % HASH_SIZE

/-- `MatchFinder.update` on a fresh finder: for each position in
`range(0, len(data) - 2)`, append the position to the chain bucket of its
3-byte hash.  The chains are modelled as a function from hash to bucket. -/
def updateChains (data : List Nat) : Nat → List Nat :=
  (List.range (data.length - 2)).foldl
    (fun chains p h => if h = hash3 data p then chains h ++ [p] else chains h)
    (fun _ => [])

/-- The match-extension `while` loop of `MatchFinder.find_best_match`:
extend `ml` while `ml < maxPossible` and
`data[cand + ml] == data[pos + ml]`. -/
def matchLenFrom (data : List Nat) (cand pos maxPossible ml : Nat) : Nat :=
  if ml < maxPossible ∧ data.getD (cand + ml) 0 = data.getD (pos + ml) 0 then
    matchLenFrom data cand pos maxPossible (ml + 1)
  else ml
termination_by maxPossible - ml

/-- The candidate walk of `MatchFinder.find_best_match`: the candidate list is
walked most-recent-first; candidates at or after `pos`, or before
`windowStart`, are skipped; a strictly longer match updates the best; the walk
stops early once the best length reaches 258. -/
def findBestLoop (data : List Nat) (pos windowStart : Nat) :
    List Nat → Nat → Nat → Nat × Nat
  | [], bestLen, bestDist => (bestLen, bestDist)
  | c :: cs, bestLen, bestDist =>
    if c ≥ pos ∨ c < windowStart then
      findBestLoop data pos windowStart cs bestLen bestDist
    else
      let ml := matchLenFrom data c pos (min MAX_MATCH (data.length - pos)) 0
      if ml > bestLen then
        if ml ≥ 258 then (ml, pos - c)
        else findBestLoop data pos windowStart cs ml (pos - c)
      else findBestLoop data pos windowStart cs bestLen bestDist

/-- `MatchFinder.find_best_match`: `None` when fewer than `MIN_MATCH` bytes
remain; otherwise walk the reversed hash-chain bucket and return the best
`(length, distance)` if its length reaches `MIN_MATCH`. -/
def find_best_match (data : List Nat) (chains : Nat → List Nat)
    (pos windowStart : Nat) : Option (Nat × Nat) :=
  if pos + MIN_MATCH > data.length then none
  else
    let candidates := chains (hash3 data pos)
    let bl := findBestLoop data pos windowStart candidates.reverse (MIN_MATCH - 1) 0
    if bl.1 ≥ MIN_MATCH then some bl else none

/-- The main loop of `LZ77Compressor.compress`: greedy parse emitting a match
token and advancing by its length when the finder returns a match of length
`≥ MIN_MATCH`, else a literal token advancing by one. -/
def compressLoop (data : List Nat) (chains : Nat → List Nat) (pos : Nat) :
    List Token :=
  if _h : pos < data.length then
    match find_best_match data chains pos (pos - WINDOW_SIZE) with
    | some (len, dist) =>
      if hl : MIN_MATCH ≤ len then
        Token.matchTok len dist :: compressLoop data chains (pos + len)
      else
        Token.literal (data.getD pos 0) :: compressLoop data chains (pos + 1)
    | none => Token.literal (data.getD pos 0) :: compressLoop data chains (pos + 1)
  else []
termination_by data.length - pos
decreasing_by
  all_goals first
    | omega
    | (simp only [MIN_MATCH] at hl; omega)

/-- `LZ77Compressor.compress`: empty input gives no tokens, otherwise build
the hash chains once and run the greedy parse from position 0. -/
def LZ77_compress (data : List Nat) : List Token :=
  if data.length = 0 then [] else compressLoop data (updateChains data) 0

/-- Python sequence indexing on a `bytearray`: non-negative indices must be
in range, negative indices wrap from the end (`l[-k]` is `l[len - k]` when
`k ≤ len`); anything else raises `IndexError` (`none`). -/
def pyIndex (l : List Nat) (i : Int) : Option Nat :=
  if 0 ≤ i then l.get? i.toNat
  else if (-i).toNat ≤ l.length then l.get? (l.length - (-i).toNat) else none

/-- The match-copy loop of `LZ77Compressor.decompress`:
`length` times, append `output[match_pos]` (Python indexing, so negative
`match_pos` wraps) and increment `match_pos`. -/
def copyLoop (output : List Nat) (matchPos : Int) : Nat → Option (List Nat)
  | 0 => some output
  | n + 1 =>
    match pyIndex output matchPos with
    | none => none
    | some b => copyLoop (output ++ [b]) (matchPos + 1) n

/-- The token loop of `LZ77Compressor.decompress`, carrying the output built
so far.  A literal appends its byte (a `bytearray` append raises unless the
value is below 256); a match copies `length` bytes starting at
`len(output) - distance` with Python indexing. -/
def decompressGo : List Token → List Nat → Option (List Nat)
  | [], out => some out
  | Token.literal b :: ts, out =>
    if b < 256 then decompressGo ts (out ++ [b]) else none
  | Token.matchTok len dist :: ts, out =>
    match copyLoop out ((out.length : Int) - (dist : Int)) len with
    | none => none
    | some out' => decompressGo ts out'

/-- `LZ77Compressor.decompress`. -/
def LZ77_decompress (tokens : List Token) : Option (List Nat) :=
  decompressGo tokens []

/-- `TokenEncoder.encode_tokens`: tag byte `0x00` plus literal byte, or tag
`0x01`, `length - MIN_MATCH` as one byte, and little-endian `u16` distance.
The source asserts `length ≤ MAX_MATCH` and `distance ≤ WINDOW_SIZE`, and
`struct.pack('B', length - MIN_MATCH)` raises when `length < MIN_MATCH`;
those failures are `none`. -/
def encode_tokens : List Token → Option (List Nat)
  | [] => some []
  | Token.literal b :: ts =>
    (encode_tokens ts).map (fun r => 0 :: b % 256 :: r)
  | Token.matchTok len dist :: ts =>
    if len ≤ MAX_MATCH ∧ dist ≤ WINDOW_SIZE ∧ MIN_MATCH ≤ len then
      (encode_tokens ts).map
        (fun r => 1 :: (len - MIN_MATCH) :: dist % 256 :: dist / 256 :: r)
    else none

/-- `TokenEncoder.decode_tokens`: reads tag bytes; tag `0x00` consumes one
literal byte, tag `0x01` consumes three operand bytes, any other tag is
skipped.  When the operands run off the end of the buffer the loop `break`s,
returning the tokens decoded so far. -/
def decode_tokens : List Nat → List Token
  | [] => []
  | [0] => []
  | 0 :: b :: rest => Token.literal b :: decode_tokens rest
  | 1 :: l :: d0 :: d1 :: rest =>
    Token.matchTok (l + MIN_MATCH) (d0 + 256 * d1) :: decode_tokens rest
  | [1] => []
  | [1, _] => []
  | [1, _, _] => []
  | (_ + 2) :: rest => decode_tokens rest

/-- `compress_data`: LZ77 parse then token serialization. -/
def compress_data (data : List Nat) : Option (List Nat) :=
  encode_tokens (LZ77_compress data)

/-- `decompress_data`: token parse then LZ77 expansion. -/
def decompress_data (compressed : List Nat) : Option (List Nat) :=
  LZ77_decompress (decode_tokens compressed)

/-! ### Correctness of the LZ77 stage -/

/-- A `(length, distance)` pair returned by the match finder at `pos`
genuinely describes a back-reference: positive distance within the window,
a length bounded by `MAX_MATCH` and the remaining input, and byte-for-byte
agreement between the source run and the run at `pos`. -/
def goodMatch (data : List Nat) (pos windowStart bl bd : Nat) : Prop :=
  1 ≤ bd ∧ bd ≤ pos ∧ windowStart ≤ pos - bd ∧
  bl ≤ min MAX_MATCH (data.length - pos) ∧
  ∀ k, k < bl → data.getD (pos - bd + k) 0 = data.getD (pos + k) 0

theorem matchLenFrom_spec (data : List Nat) (cand pos maxP : Nat) :
    ∀ fuel ml, maxP - ml ≤ fuel → ml ≤ maxP →
      ml ≤ matchLenFrom data cand pos maxP ml ∧
      matchLenFrom data cand pos maxP ml ≤ maxP ∧
      (∀ k, ml ≤ k → k < matchLenFrom data cand pos maxP ml →
        data.getD (cand + k) 0 = data.getD (pos + k) 0) := by
  intro fuel
  induction fuel with
  | zero =>
    intro ml hf hle
    rw [matchLenFrom]
    have hc : ¬(ml < maxP ∧ data.getD (cand + ml) 0 = data.getD (pos + ml) 0) := by
      rintro ⟨h1, -⟩; omega
    rw [if_neg hc]
    exact ⟨le_refl _, hle, fun k hk1 hk2 => absurd hk2 (by omega)⟩
  | succ n ih =>
    intro ml hf hle
    rw [matchLenFrom]
    by_cases hc : ml < maxP ∧ data.getD (cand + ml) 0 = data.getD (pos + ml) 0
    · rw [if_pos hc]
      have h := ih (ml + 1) (by omega) (by omega)
      refine ⟨by omega, h.2.1, fun k hk1 hk2 => ?_⟩
      rcases Nat.eq_or_lt_of_le hk1 with heq | hlt
      · exact heq ▸ hc.2
      · exact h.2.2 k hlt hk2
    · rw [if_neg hc]
      exact ⟨le_refl _, hle, fun k hk1 hk2 => absurd hk2 (by omega)⟩

theorem findBestLoop_spec (data : List Nat) (pos windowStart : Nat) :
    ∀ cs bl bd,
      ((bl = MIN_MATCH - 1 ∧ bd = 0) ∨ goodMatch data pos windowStart bl bd) →
      ((findBestLoop data pos windowStart cs bl bd).1 = MIN_MATCH - 1 ∧
          (findBestLoop data pos windowStart cs bl bd).2 = 0) ∨
        goodMatch data pos windowStart
          (findBestLoop data pos windowStart cs bl bd).1
          (findBestLoop data pos windowStart cs bl bd).2 := by
  intro cs
  induction cs with
  | nil => intro bl bd h; exact h
  | cons c cs ih =>
    intro bl bd h
    rw [findBestLoop]
    by_cases hskip : c ≥ pos ∨ c < windowStart
    · rw [if_pos hskip]; exact ih bl bd h
    · rw [if_neg hskip]
      push_neg at hskip
      obtain ⟨hcpos, hcws⟩ := hskip
      have hm := matchLenFrom_spec data c pos (min MAX_MATCH (data.length - pos))
        (min MAX_MATCH (data.length - pos)) 0 (by omega) (by omega)
      set ml := matchLenFrom data c pos (min MAX_MATCH (data.length - pos)) 0 with hml
      have hgood : goodMatch data pos windowStart ml (pos - c) := by
        refine ⟨by omega, by omega, ?_, hm.2.1, fun k hk => ?_⟩
        · have : pos - (pos - c) = c := by omega
          omega
        · have : pos - (pos - c) = c := by omega
          rw [this]
          exact hm.2.2 k (Nat.zero_le k) hk
      by_cases hgt : ml > bl
      · rw [if_pos hgt]
        by_cases h258 : ml ≥ 258
        · rw [if_pos h258]; exact Or.inr hgood
        · rw [if_neg h258]; exact ih ml (pos - c) (Or.inr hgood)
      · rw [if_neg hgt]; exact ih bl bd h

theorem find_best_match_spec (data : List Nat) (chains : Nat → List Nat)
    (pos windowStart : Nat) (L D : Nat)
    (h : find_best_match data chains pos windowStart = some (L, D)) :
    MIN_MATCH ≤ L ∧ goodMatch data pos windowStart L D := by
  rw [find_best_match] at h
  by_cases hrem : pos + MIN_MATCH > data.length
  · rw [if_pos hrem] at h; exact absurd h (by simp)
  · rw [if_neg hrem] at h
    simp only at h
    set r := findBestLoop data pos windowStart
      ((chains (hash3 data pos)).reverse) (MIN_MATCH - 1) 0 with hr
    by_cases hge : r.1 ≥ MIN_MATCH
    · rw [if_pos hge] at h
      have hspec := findBestLoop_spec data pos windowStart
        ((chains (hash3 data pos)).reverse) (MIN_MATCH - 1) 0 (Or.inl ⟨rfl, rfl⟩)
      rw [← hr] at hspec
      have hLD : r = (L, D) := Option.some.injEq _ _ ▸ h
      rcases hspec with ⟨h1, -⟩ | hgood
      · rw [h1] at hge; simp [MIN_MATCH] at hge
      · rw [hLD] at hgood hge
        exact ⟨hge, hgood⟩
    · rw [if_neg hge] at h; exact absurd h (by simp)

theorem copyLoop_take (data : List Nat) (D L pos : Nat) (hD1 : 1 ≤ D)
    (hDpos : D ≤ pos) (hlen : pos + L ≤ data.length)
    (heq : ∀ k, k < L → data.getD (pos - D + k) 0 = data.getD (pos + k) 0) :
    ∀ n k, k + n = L →
      copyLoop (data.take (pos + k)) (((pos - D + k : Nat) : Int)) n =
        some (data.take (pos + L)) := by
  intro n
  induction n with
  | zero => intro k hk; rw [copyLoop]; rw [show k = L by omega]
  | succ m ih =>
    intro k hk
    rw [copyLoop]
    have hidx : pos - D + k < (data.take (pos + k)).length := by
      rw [List.length_take]; omega
    have hpy : pyIndex (data.take (pos + k)) (((pos - D + k : Nat) : Int)) =
        some (data.getD (pos - D + k) 0) := by
      rw [pyIndex, if_pos (by positivity)]
      rw [Int.toNat_natCast]
      rw [List.get?_eq_getElem? ]
      rw [List.getElem?_eq_getElem hidx]
      congr 1
      rw [List.getElem_take]
      rw [List.getD_eq_getElem data 0 (by omega)]
    rw [hpy]
    have hbyte : data.getD (pos - D + k) 0 = data.getD (pos + k) 0 :=
      heq k (by omega)
    have hstep : data.take (pos + k) ++ [data.getD (pos - D + k) 0] =
        data.take (pos + k + 1) := by
      rw [hbyte, List.take_succ, List.getD_eq_getElem data 0 (by omega),
        List.getElem?_eq_getElem (by omega)]
      rfl
    simp only [hstep]
    have := ih (k + 1) (by omega)
    rw [show ((pos - D + k : Nat) : Int) + 1 = ((pos - D + (k + 1) : Nat) : Int) by
      push_cast; omega]
    rw [show pos + k + 1 = pos + (k + 1) by omega]
    exact this

theorem compressLoop_decompressGo (data : List Nat)
    (hb : ∀ b ∈ data, b < 256) :
    ∀ fuel pos, data.length - pos ≤ fuel → pos ≤ data.length →
      decompressGo (compressLoop data (updateChains data) pos) (data.take pos) =
        some data := by
  intro fuel
  induction fuel with
  | zero =>
    intro pos hf hle
    have hpos : pos = data.length := by omega
    rw [compressLoop, dif_neg (by omega)]
    rw [decompressGo, hpos, List.take_length]
  | succ n ih =>
    intro pos hf hle
    rw [compressLoop]
    by_cases hpos : pos < data.length
    · rw [dif_pos hpos]
      have hlit : decompressGo
          (Token.literal (data.getD pos 0) ::
            compressLoop data (updateChains data) (pos + 1))
          (data.take pos) = some data := by
        rw [decompressGo,
          if_pos (by
            rw [List.getD_eq_getElem data 0 hpos]
            exact hb _ (data.getElem_mem hpos))]
        have htake : data.take pos ++ [data.getD pos 0] = data.take (pos + 1) := by
          rw [List.take_succ, List.getD_eq_getElem data 0 hpos,
            List.getElem?_eq_getElem hpos]
          rfl
        rw [htake]
        exact ih (pos + 1) (by omega) (by omega)
      rcases hfind : find_best_match data (updateChains data) pos
          (pos - WINDOW_SIZE) with - | ⟨L, D⟩
      · simpa only [hfind] using hlit
      · simp only [hfind]
        obtain ⟨hL3, hD1, hDpos, -, hLle, heq⟩ :=
          find_best_match_spec data (updateChains data) pos (pos - WINDOW_SIZE)
            L D hfind
        rw [dif_pos hL3]
        rw [decompressGo]
        have hL3' : 3 ≤ L := hL3
        have hlenL : pos + L ≤ data.length := by
          simp only [MAX_MATCH] at hLle; omega
        have hcast : ((data.take pos).length : Int) - (D : Int) =
            ((pos - D + 0 : Nat) : Int) := by
          rw [List.length_take]; push_cast; omega
        rw [hcast,
          show data.take pos = data.take (pos + 0) by rw [Nat.add_zero],
          copyLoop_take data D L pos hD1 hDpos hlenL heq L 0 (by omega)]
        exact ih (pos + L) (by omega) (by omega)
    · rw [dif_neg hpos]
      rw [decompressGo, show pos = data.length by omega, List.take_length]

/-- Field ranges under which a token serializes and deserializes exactly
(the ranges of §3 of the specification). -/
def validToken : Token → Prop
  | .literal b => b < 256
  | .matchTok L D => MIN_MATCH ≤ L ∧ L ≤ MAX_MATCH ∧ 1 ≤ D ∧ D ≤ WINDOW_SIZE

instance : DecidablePred validToken := by
  intro t; cases t <;> simp only [validToken] <;> infer_instance

theorem compressLoop_valid (data : List Nat) (hb : ∀ b ∈ data, b < 256)
    (chains : Nat → List Nat) :
    ∀ fuel pos, data.length - pos ≤ fuel →
      ∀ t ∈ compressLoop data chains pos, validToken t := by
  intro fuel
  induction fuel with
  | zero =>
    intro pos hf t ht
    rw [compressLoop, dif_neg (by omega)] at ht
    exact absurd ht (List.not_mem_nil t)
  | succ n ih =>
    intro pos hf t ht
    rw [compressLoop] at ht
    by_cases hpos : pos < data.length
    · rw [dif_pos hpos] at ht
      have hlitcase : ∀ t',
          t' ∈ Token.literal (data.getD pos 0) ::
            compressLoop data chains (pos + 1) → validToken t' := by
        intro t' ht'
        rcases List.mem_cons.mp ht' with heq | hmem
        · subst heq
          show data.getD pos 0 < 256
          rw [List.getD_eq_getElem data 0 hpos]
          exact hb _ (data.getElem_mem hpos)
        · exact ih (pos + 1) (by omega) t' hmem
      rcases hfind : find_best_match data chains pos (pos - WINDOW_SIZE)
          with - | ⟨L, D⟩
      · simp only [hfind] at ht; exact hlitcase t ht
      · simp only [hfind] at ht
        obtain ⟨hL3, hD1, hDpos, hws, hLle, -⟩ :=
          find_best_match_spec data chains pos (pos - WINDOW_SIZE) L D hfind
        by_cases hL : MIN_MATCH ≤ L
        · rw [dif_pos hL] at ht
          rcases List.mem_cons.mp ht with heq | hmem
          · subst heq
            refine ⟨hL3, by simp only [MAX_MATCH] at hLle ⊢; omega, hD1, ?_⟩
            show D ≤ WINDOW_SIZE
            simp only [WINDOW_SIZE] at hws ⊢
            omega
          · have hL3' : 3 ≤ L := hL3
            exact ih (pos + L) (by omega) t hmem
        · rw [dif_neg hL] at ht; exact hlitcase t ht
    · rw [dif_neg hpos] at ht
      exact absurd ht (List.not_mem_nil t)

theorem encode_tokens_isSome (ts : List Token) (hv : ∀ t ∈ ts, validToken t) :
    ∃ bs, encode_tokens ts = some bs := by
  induction ts with
  | nil => exact ⟨[], rfl⟩
  | cons t ts ih =>
    obtain ⟨bs, hbs⟩ := ih (fun t' ht' => hv t' (List.mem_cons_of_mem t ht'))
    cases t with
    | literal b => exact ⟨_, by rw [encode_tokens, hbs]; rfl⟩
    | matchTok L D =>
      obtain ⟨h1, h2, h3, h4⟩ := hv _ (List.mem_cons_self _ _)
      exact ⟨_, by rw [encode_tokens, if_pos ⟨h2, h4, h1⟩, hbs]; rfl⟩

theorem decode_tokens_append (ts : List Token) (hv : ∀ t ∈ ts, validToken t) :
    ∀ bs tail, encode_tokens ts = some bs →
      decode_tokens (bs ++ tail) = ts ++ decode_tokens tail := by
  induction ts with
  | nil =>
    intro bs tail henc
    rw [encode_tokens] at henc
    cases henc
    rfl
  | cons t ts ih =>
    intro bs tail henc
    have hvt := hv _ (List.mem_cons_self _ _)
    have hvts := fun t' ht' => hv t' (List.mem_cons_of_mem t ht')
    cases t with
    | literal b =>
      rw [encode_tokens] at henc
      rcases hrest : encode_tokens ts with - | r
      · rw [hrest] at henc; cases henc
      · rw [hrest] at henc
        cases henc
        have hmod : b % 256 = b := Nat.mod_eq_of_lt hvt
        simp only [List.cons_append]
        rw [decode_tokens, hmod]
        rw [ih hvts r tail hrest]
    | matchTok L D =>
      obtain ⟨h1, h2, h3, h4⟩ := hvt
      rw [encode_tokens, if_pos ⟨h2, h4, h1⟩] at henc
      rcases hrest : encode_tokens ts with - | r
      · rw [hrest] at henc; cases henc
      · rw [hrest] at henc
        cases henc
        simp only [List.cons_append]
        rw [decode_tokens]
        rw [ih hvts r tail hrest]
        have hlen : L - MIN_MATCH + MIN_MATCH = L := by
          have : (3 : Nat) ≤ L := h1
          simp only [MIN_MATCH]
          omega
        have hdist : D % 256 + 256 * (D / 256) = D := Nat.mod_add_div D 256
        rw [hlen, hdist]

/-- `decode_tokens` of a lone truncated token (a tag byte whose operands are
missing) yields no tokens. -/
def truncatedFragment (frag : List Nat) : Prop :=
  frag = [0] ∨ ∃ r, frag = 1 :: r ∧ r.length < 3

theorem decode_tokens_fragment (frag : List Nat)
    (hfrag : truncatedFragment frag) : decode_tokens frag = [] := by
  rcases hfrag with rfl | ⟨r, rfl, hr⟩
  · rfl
  · match r, hr with
    | [], _ => rfl
    | [a], _ => rfl
    | [a, b], _ => rfl

/-- C2: For every byte buffer `data`, the LZ77 backend round-trips:
`decompress_data (compress_data data) = data`, including the empty buffer. -/
theorem lz77_roundtrip (data : List Nat) (hb : ∀ b ∈ data, b < 256) :
    ∃ c, compress_data data = some c ∧ decompress_data c = some data := by
  have hvalid : ∀ t ∈ LZ77_compress data, validToken t := by
    intro t ht
    rw [LZ77_compress] at ht
    by_cases hz : data.length = 0
    · rw [if_pos hz] at ht; exact absurd ht (List.not_mem_nil t)
    · rw [if_neg hz] at ht
      exact compressLoop_valid data hb (updateChains data) data.length 0
        (by omega) t ht
  obtain ⟨bs, hbs⟩ := encode_tokens_isSome (LZ77_compress data) hvalid
  refine ⟨bs, hbs, ?_⟩
  rw [decompress_data]
  have hdec : decode_tokens bs = LZ77_compress data := by
    have h := decode_tokens_append (LZ77_compress data) hvalid bs [] hbs
    have h0 : decode_tokens ([] : List Nat) = [] := rfl
    rw [List.append_nil, h0, List.append_nil] at h
    exact h
  rw [hdec, LZ77_decompress, LZ77_compress]
  by_cases hz : data.length = 0
  · rw [if_pos hz, decompressGo]
    rw [List.length_eq_zero.mp hz]
  · rw [if_neg hz]
    have := compressLoop_decompressGo data hb data.length 0 (by omega) (by omega)
    simpa using this

/-- Closed witness for `lz77_roundtrip` at the concrete buffer
`[1, 1, 1, 1, 2]`. -/
theorem lz77_roundtrip_witness :
    (∀ b ∈ [1, 1, 1, 1, 2], b < 256) ∧
      ∃ c, compress_data [1, 1, 1, 1, 2] = some c ∧
        decompress_data c = some [1, 1, 1, 1, 2] :=
  ⟨by decide, lz77_roundtrip [1, 1, 1, 1, 2] (by decide)⟩

/-- C4 (counterexample): decoding a token stream that ends in a truncated
token (here a literal tag `0x00` with its operand byte missing) does not
abort with an error — it returns the partial token list `[Literal 0x41]` as
a successful result, contradicting the claim. -/
theorem decode_tokens_truncated_counterexample :
    decode_tokens [0, 65, 0] = [Token.literal 65] := rfl

/-- C4 (amended): decoding a truncated LZ77 token stream silently drops the
incomplete trailing token and returns the previously decoded tokens as a
successful (non-error) result. -/
theorem decode_tokens_truncated (ts : List Token) (bs frag : List Nat)
    (hv : ∀ t ∈ ts, validToken t) (henc : encode_tokens ts = some bs)
    (hfrag : truncatedFragment frag) :
    decode_tokens (bs ++ frag) = ts := by
  rw [decode_tokens_append ts hv bs frag henc, decode_tokens_fragment frag hfrag,
    List.append_nil]

/-- Closed witness for `decode_tokens_truncated`: the encoding of
`[Literal 65]` followed by a dangling match tag decodes back to exactly
`[Literal 65]`. -/
theorem decode_tokens_truncated_witness :
    decode_tokens ([0, 65] ++ [1, 7]) = [Token.literal 65] :=
  decode_tokens_truncated [Token.literal 65] [0, 65] [1, 7]
    (by decide) rfl (Or.inr ⟨[7], rfl, by decide⟩)

/-- C5: emitting a match whose distance exceeds the current output length is
claimed to be a hard error; in the code, Python's negative indexing makes the
decode of `[Literal 65, Match(length 3, distance 2)]` (distance 2, output
length 1) succeed with output `[65, 65, 65, 65]` instead of failing. -/
theorem lz77_decompress_overlong_distance :
    LZ77_decompress [Token.literal 65, Token.matchTok 3 2] =
      some [65, 65, 65, 65] := rfl

end Compressor

namespace Format

/-! ## format.py — LZHA container and CRC32 integrity -/

/-- `FileEntry` from `format.py`.  The `filename` string is modelled as its
list of Unicode code points. -/
structure FileEntry where
  filename : List Nat
  original_size : Nat
  compressed_size : Nat
  compressed_data : List Nat
  crc32 : Nat
deriving DecidableEq, Repr

/-- Modelled from the spec: one polynomial step of `zlib.crc32` (§4.1 —
reflected IEEE polynomial `0xEDB88320`); the library itself is not part of
the repository sources. -/
def crcRound (t : Nat) : Nat :=
  if t % 2 = 1 then (t / 2) ^^^ 0xEDB88320 else t / 2

/-- Modelled from the spec: absorbing one byte into the `zlib.crc32`
state — xor the byte into the low bits, then eight polynomial steps. -/
def crcByte (c b : Nat) : Nat := crcRound^[8] (c ^^^ b)

/-- Modelled from the spec: `zlib.crc32` — initial value `0xFFFFFFFF`,
bytewise absorption, final xor `0xFFFFFFFF`.  `calculate_crc32` in
`format.py` additionally masks with `0xffffffff`. -/
def calculate_crc32 (data : List Nat) : Nat :=
  ((data.foldl crcByte 0xFFFFFFFF) ^^^ 0xFFFFFFFF) &&& 0xFFFFFFFF

/-- `verify_integrity` from `format.py`: length check, then CRC32
comparison. -/
def verify_integrity (entry : FileEntry) (decompressed : List Nat) : Bool :=
  if decompressed.length ≠ entry.original_size then false
  else calculate_crc32 decompressed == entry.crc32

/-! ### CRC32 detects any single-byte change -/

theorem crcRound_lt (t : Nat) (h : t < 2 ^ 32) : crcRound t < 2 ^ 32 := by
  rw [crcRound]
  split
  · exact Nat.xor_lt_two_pow (by omega) (by norm_num)
  · omega

theorem xor_poly_ge (x : Nat) (hx : x < 2 ^ 31) : 2 ^ 31 ≤ x ^^^ 0xEDB88320 := by
  have hbit : (x ^^^ 0xEDB88320).testBit 31 = true := by
    rw [Nat.testBit_xor, Nat.testBit_eq_false_of_lt hx]
    decide
  by_contra hlt
  rw [Nat.testBit_eq_false_of_lt (by omega)] at hbit
  exact Bool.false_ne_true hbit

theorem crcRound_inj (t1 t2 : Nat) (h1 : t1 < 2 ^ 32) (h2 : t2 < 2 ^ 32)
    (h : crcRound t1 = crcRound t2) : t1 = t2 := by
  rw [crcRound, crcRound] at h
  by_cases hp1 : t1 % 2 = 1 <;> by_cases hp2 : t2 % 2 = 1
  · rw [if_pos hp1, if_pos hp2] at h
    have := Nat.xor_left_inj.mp h
    omega
  · rw [if_pos hp1, if_neg hp2] at h
    have hge := xor_poly_ge (t1 / 2) (by omega)
    omega
  · rw [if_neg hp1, if_pos hp2] at h
    have hge := xor_poly_ge (t2 / 2) (by omega)
    omega
  · rw [if_neg hp1, if_neg hp2] at h
    omega

theorem crcRound_iter_lt (n : Nat) (t : Nat) (h : t < 2 ^ 32) :
    crcRound^[n] t < 2 ^ 32 := by
  induction n generalizing t with
  | zero => exact h
  | succ m ih => rw [Function.iterate_succ_apply]; exact ih _ (crcRound_lt t h)

theorem crcRound_iter_inj (n : Nat) (t1 t2 : Nat) (h1 : t1 < 2 ^ 32)
    (h2 : t2 < 2 ^ 32) (h : crcRound^[n] t1 = crcRound^[n] t2) : t1 = t2 := by
  induction n generalizing t1 t2 with
  | zero => exact h
  | succ m ih =>
    rw [Function.iterate_succ_apply, Function.iterate_succ_apply] at h
    exact crcRound_inj t1 t2 h1 h2
      (ih _ _ (crcRound_lt t1 h1) (crcRound_lt t2 h2) h)

theorem crcByte_lt (c b : Nat) (hc : c < 2 ^ 32) (hb : b < 256) :
    crcByte c b < 2 ^ 32 :=
  crcRound_iter_lt 8 _ (Nat.xor_lt_two_pow hc (by omega))

theorem crcByte_inj_left (c1 c2 b : Nat) (hc1 : c1 < 2 ^ 32)
    (hc2 : c2 < 2 ^ 32) (hb : b < 256) (hne : c1 ≠ c2) :
    crcByte c1 b ≠ crcByte c2 b := by
  intro h
  have := crcRound_iter_inj 8 _ _ (Nat.xor_lt_two_pow hc1 (by omega))
    (Nat.xor_lt_two_pow hc2 (by omega)) h
  exact hne (Nat.xor_left_inj.mp this)

theorem crcByte_inj_right (c b1 b2 : Nat) (hc : c < 2 ^ 32) (hb1 : b1 < 256)
    (hb2 : b2 < 256) (hne : b1 ≠ b2) : crcByte c b1 ≠ crcByte c b2 := by
  intro h
  have := crcRound_iter_inj 8 _ _ (Nat.xor_lt_two_pow hc (by omega))
    (Nat.xor_lt_two_pow hc (by omega)) h
  exact hne (Nat.xor_right_inj.mp this)

theorem crcFold_lt (l : List Nat) (hl : ∀ b ∈ l, b < 256) :
    ∀ c, c < 2 ^ 32 → l.foldl crcByte c < 2 ^ 32 := by
  induction l with
  | nil => intro c hc; exact hc
  | cons b l ih =>
    intro c hc
    rw [List.foldl_cons]
    exact ih (fun x hx => hl x (List.mem_cons_of_mem b hx)) _
      (crcByte_lt c b hc (hl b (List.mem_cons_self b l)))

theorem crcFold_inj (l : List Nat) (hl : ∀ b ∈ l, b < 256) :
    ∀ c1 c2, c1 < 2 ^ 32 → c2 < 2 ^ 32 → c1 ≠ c2 →
      l.foldl crcByte c1 ≠ l.foldl crcByte c2 := by
  induction l with
  | nil => intro c1 c2 _ _ hne; exact hne
  | cons b l ih =>
    intro c1 c2 hc1 hc2 hne
    rw [List.foldl_cons, List.foldl_cons]
    have hb : b < 256 := hl b (List.mem_cons_self b l)
    exact ih (fun x hx => hl x (List.mem_cons_of_mem b hx)) _ _
      (crcByte_lt c1 b hc1 hb) (crcByte_lt c2 b hc2 hb)
      (crcByte_inj_left c1 c2 b hc1 hc2 hb hne)

theorem calculate_crc32_single_change (orig : List Nat)
    (hb : ∀ x ∈ orig, x < 256) (i : Nat) (hi : i < orig.length) (b : Nat)
    (hblt : b < 256) (hbne : b ≠ orig.getD i 0) :
    calculate_crc32 (orig.set i b) ≠ calculate_crc32 orig := by
  have hsplit : orig = orig.take i ++ orig.getD i 0 :: orig.drop (i + 1) := by
    conv_lhs => rw [← List.take_append_drop i orig]
    congr 1
    rw [List.getD_eq_getElem orig 0 hi]
    exact (List.drop_eq_getElem_cons hi).symm ▸ rfl
  have hset : orig.set i b = orig.take i ++ b :: orig.drop (i + 1) :=
    List.set_eq_take_cons_drop b hi
  have htakelt : ∀ x ∈ orig.take i, x < 256 :=
    fun x hx => hb x (List.mem_of_mem_take hx)
  have hdroplt : ∀ x ∈ orig.drop (i + 1), x < 256 :=
    fun x hx => hb x (List.mem_of_mem_drop hx)
  have hprelt : (orig.take i).foldl crcByte 0xFFFFFFFF < 2 ^ 32 :=
    crcFold_lt _ htakelt _ (by norm_num)
  have horiglt : orig.getD i 0 < 256 := by
    rw [List.getD_eq_getElem orig 0 hi]
    exact hb _ (orig.getElem_mem hi)
  have hfold : (orig.set i b).foldl crcByte 0xFFFFFFFF ≠
      orig.foldl crcByte 0xFFFFFFFF := by
    rw [hset]
    conv_rhs => rw [hsplit]
    rw [List.foldl_append, List.foldl_append, List.foldl_cons, List.foldl_cons]
    exact crcFold_inj _ hdroplt _ _
      (crcByte_lt _ b hprelt hblt) (crcByte_lt _ _ hprelt horiglt)
      (crcByte_inj_right _ b _ hprelt hblt horiglt hbne)
  have hsetlt : ∀ x ∈ orig.set i b, x < 256 := by
    intro x hx
    rcases List.mem_or_eq_of_mem_set hx with hmem | rfl
    · exact hb x hmem
    · exact hblt
  have hA : (orig.set i b).foldl crcByte 0xFFFFFFFF < 2 ^ 32 :=
    crcFold_lt _ hsetlt _ (by norm_num)
  have hB : orig.foldl crcByte 0xFFFFFFFF < 2 ^ 32 :=
    crcFold_lt _ hb _ (by norm_num)
  have hmask : ∀ x : Nat, x < 2 ^ 32 → x &&& 0xFFFFFFFF = x := by
    intro x hx
    rw [show (0xFFFFFFFF : Nat) = 2 ^ 32 - 1 from by norm_num]
    exact Nat.and_pow_two_sub_one_of_lt_two_pow hx
  rw [calculate_crc32, calculate_crc32]
  intro h
  rw [hmask _ (Nat.xor_lt_two_pow hA (by norm_num)),
      hmask _ (Nat.xor_lt_two_pow hB (by norm_num))] at h
  exact hfold (Nat.xor_left_inj.mp h)

/-- C8: a freshly stamped entry verifies against the original bytes, and
fails to verify against any single-byte perturbation of them. -/
theorem verify_integrity_crc (orig : List Nat) (hb : ∀ x ∈ orig, x < 256)
    (entry : FileEntry) (hcrc : entry.crc32 = calculate_crc32 orig)
    (hsize : entry.original_size = orig.length) :
    verify_integrity entry orig = true ∧
      ∀ i, i < orig.length → ∀ b, b < 256 → b ≠ orig.getD i 0 →
        verify_integrity entry (orig.set i b) = false := by
  constructor
  · rw [verify_integrity, if_neg (by omega)]
    rw [hcrc, beq_iff_eq]
  · intro i hi b hblt hbne
    rw [verify_integrity, if_neg (by rw [List.length_set]; omega)]
    rw [beq_eq_false_iff_ne, hcrc]
    exact calculate_crc32_single_change orig hb i hi b hblt hbne

/-- Closed witness for `verify_integrity_crc`: the one-byte buffer `[55]`
verifies against its own CRC entry, and flipping that byte to `56` fails. -/
theorem verify_integrity_crc_witness :
    (verify_integrity ⟨[102], 1, 0, [], calculate_crc32 [55]⟩ [55] = true ∧
      ∀ i, i < ([55] : List Nat).length → ∀ b, b < 256 →
        b ≠ ([55] : List Nat).getD i 0 →
        verify_integrity ⟨[102], 1, 0, [], calculate_crc32 [55]⟩
          (([55] : List Nat).set i b) = false) :=
  verify_integrity_crc [55] (by decide) ⟨[102], 1, 0, [], calculate_crc32 [55]⟩
    rfl rfl

/-! ### UTF-8 filename codec

Modelled from the spec: entries store `filename bytes (UTF-8)` (§4.6); the
codec itself is Python's `str.encode('utf-8')` / `bytes.decode('utf-8')`,
which is not part of the repository sources.  Code points are scalar values
below `0x110000` excluding the surrogate block. -/

def validCodepoint (c : Nat) : Prop :=
  c < 0x110000 ∧ ¬(0xD800 ≤ c ∧ c < 0xE000)

instance : DecidablePred validCodepoint := by
  intro c; rw [validCodepoint]; infer_instance

/-- Modelled from the spec: UTF-8 encoding of one scalar value
(1 to 4 bytes). -/
def utf8EncodeChar (c : Nat) : List Nat :=
  if c < 0x80 then [c]
  else if c < 0x800 then [0xC0 + c / 0x40, 0x80 + c % 0x40]
  else if c < 0x10000 then
    [0xE0 + c / 0x1000, 0x80 + c / 0x40 % 0x40, 0x80 + c % 0x40]
  else [0xF0 + c / 0x40000, 0x80 + c / 0x1000 % 0x40, 0x80 + c / 0x40 % 0x40,
    0x80 + c % 0x40]

/-- Modelled from the spec: `str.encode('utf-8')`. -/
def utf8Encode (s : List Nat) : List Nat := (s.map utf8EncodeChar).flatten

/-- A UTF-8 continuation byte. -/
def isCont (b : Nat) : Prop := 0x80 ≤ b ∧ b < 0xC0

instance (b : Nat) : Decidable (isCont b) := by rw [isCont]; infer_instance

/-- Modelled from the spec: strict UTF-8 decoding of one scalar value
(`bytes.decode('utf-8')`), rejecting stray continuation bytes, overlong
forms, surrogates, and values beyond `0x10FFFF`.  Returns the code point and
the remaining bytes. -/
def utf8DecodeChar : List Nat → Option (Nat × List Nat)
  | [] => none
  | b :: rest =>
    if b < 0x80 then some (b, rest)
    else if b < 0xC2 then none
    else if b < 0xE0 then
      if 1 ≤ rest.length ∧ isCont (rest.getD 0 0) then
        some ((b - 0xC0) * 0x40 + (rest.getD 0 0 - 0x80), rest.drop 1)
      else none
    else if b < 0xF0 then
      if 2 ≤ rest.length ∧ isCont (rest.getD 0 0) ∧ isCont (rest.getD 1 0) then
        if (b - 0xE0) * 0x1000 + (rest.getD 0 0 - 0x80) * 0x40 +
              (rest.getD 1 0 - 0x80) < 0x800 ∨
            (0xD800 ≤ (b - 0xE0) * 0x1000 + (rest.getD 0 0 - 0x80) * 0x40 +
                (rest.getD 1 0 - 0x80) ∧
              (b - 0xE0) * 0x1000 + (rest.getD 0 0 - 0x80) * 0x40 +
                (rest.getD 1 0 - 0x80) < 0xE000) then none
        else
          some ((b - 0xE0) * 0x1000 + (rest.getD 0 0 - 0x80) * 0x40 +
            (rest.getD 1 0 - 0x80), rest.drop 2)
      else none
    else if b < 0xF5 then
      if 3 ≤ rest.length ∧ isCont (rest.getD 0 0) ∧ isCont (rest.getD 1 0) ∧
          isCont (rest.getD 2 0) then
        if (b - 0xF0) * 0x40000 + (rest.getD 0 0 - 0x80) * 0x1000 +
              (rest.getD 1 0 - 0x80) * 0x40 + (rest.getD 2 0 - 0x80) <
              0x10000 ∨
            0x110000 ≤ (b - 0xF0) * 0x40000 + (rest.getD 0 0 - 0x80) * 0x1000 +
              (rest.getD 1 0 - 0x80) * 0x40 + (rest.getD 2 0 - 0x80) then none
        else
          some ((b - 0xF0) * 0x40000 + (rest.getD 0 0 - 0x80) * 0x1000 +
            (rest.getD 1 0 - 0x80) * 0x40 + (rest.getD 2 0 - 0x80),
            rest.drop 3)
      else none
    else none

set_option maxRecDepth 4000 in
theorem utf8DecodeChar_shrink (l : List Nat) (c : Nat) (rest' : List Nat)
    (h : utf8DecodeChar l = some (c, rest')) : rest'.length < l.length := by
  cases l with
  | nil => rw [utf8DecodeChar] at h; cases h
  | cons b rest =>
    rw [utf8DecodeChar] at h
    split_ifs at h <;>
      simp only [Option.some.injEq, Prod.mk.injEq] at h <;>
      rcases h with ⟨-, rfl⟩ <;>
      simp only [List.length_drop, List.length_cons] <;>
      omega

/-- Modelled from the spec: `bytes.decode('utf-8')` over a whole buffer. -/
def utf8Decode : List Nat → Option (List Nat)
  | [] => some []
  | b :: rest =>
    match hc : utf8DecodeChar (b :: rest) with
    | none => none
    | some (c, rest') => (utf8Decode rest').map (c :: ·)
termination_by l => l.length
decreasing_by exact utf8DecodeChar_shrink _ _ _ hc

/-! ### Wire format helpers (`struct.pack`/`struct.unpack`, little-endian) -/

/-- `struct.pack('H', v)` (the source relies on a little-endian platform). -/
def le16 (v : Nat) : List Nat := [v % 256, v / 256 % 256]

/-- `struct.pack('I', v)`. -/
def le32 (v : Nat) : List Nat :=
  [v % 256, v / 2 ^ 8 % 256, v / 2 ^ 16 % 256, v / 2 ^ 24 % 256]

/-- `struct.pack('Q', v)`. -/
def le64 (v : Nat) : List Nat :=
  [v % 256, v / 2 ^ 8 % 256, v / 2 ^ 16 % 256, v / 2 ^ 24 % 256,
   v / 2 ^ 32 % 256, v / 2 ^ 40 % 256, v / 2 ^ 48 % 256, v / 2 ^ 56 % 256]

/-- `struct.unpack('H', data[pos:pos+2])`: `none` when the slice is short. -/
def readU16at (data : List Nat) (pos : Nat) : Option Nat :=
  match (data.drop pos).take 2 with
  | [b0, b1] => some (b0 + 2 ^ 8 * b1)
  | _ => none

/-- `struct.unpack('I', data[pos:pos+4])`. -/
def readU32at (data : List Nat) (pos : Nat) : Option Nat :=
  match (data.drop pos).take 4 with
  | [b0, b1, b2, b3] => some (b0 + 2 ^ 8 * b1 + 2 ^ 16 * b2 + 2 ^ 24 * b3)
  | _ => none

/-- `struct.unpack('Q', data[pos:pos+8])`. -/
def readU64at (data : List Nat) (pos : Nat) : Option Nat :=
  match (data.drop pos).take 8 with
  | [b0, b1, b2, b3, b4, b5, b6, b7] =>
    some (b0 + 2 ^ 8 * b1 + 2 ^ 16 * b2 + 2 ^ 24 * b3 + 2 ^ 32 * b4 +
      2 ^ 40 * b5 + 2 ^ 48 * b6 + 2 ^ 56 * b7)
  | _ => none

/-! ### Archive writing and reading -/

/-- `ArchiveHeader.serialize`: magic `LZHA`, version 1, a zero byte, and ten
reserved zero bytes — 16 bytes total. -/
def headerBytes : List Nat := [76, 90, 72, 65, 1, 0] ++ List.replicate 10 0

/-- `ArchiveFormat._write_entry`: `u16` filename length, filename bytes,
`u64` original size, `u64` compressed size, `u32` CRC32, payload bytes.
`struct.pack` range failures are `none`. -/
def write_entry (e : FileEntry) : Option (List Nat) :=
  if (utf8Encode e.filename).length < 2 ^ 16 ∧ e.original_size < 2 ^ 64 ∧
      e.compressed_size < 2 ^ 64 ∧ e.crc32 < 2 ^ 32 then
    some (le16 (utf8Encode e.filename).length ++ utf8Encode e.filename ++
      le64 e.original_size ++ le64 e.compressed_size ++ le32 e.crc32 ++
      e.compressed_data)
  else none

/-- The entry-writing loop of `ArchiveFormat.create_archive`. -/
def writeEntries : List FileEntry → Option (List Nat)
  | [] => some []
  | e :: es =>
    match write_entry e, writeEntries es with
    | some c, some r => some (c ++ r)
    | _, _ => none

/-- `ArchiveFormat.create_archive`: header, `u32` entry count, entries. -/
def create_archive (entries : List FileEntry) : Option (List Nat) :=
  if entries.length < 2 ^ 32 then
    (writeEntries entries).map
      (fun body => headerBytes ++ le32 entries.length ++ body)
  else none

/-- `ArchiveFormat._read_entry`: mirrors the source's bounds checks; any
`raise` (including the `struct.error` on a short CRC slice, since the
source's metadata check only guards 16 of the 20 metadata bytes) is `none`.
Returns the entry and the new position. -/
def read_entry (data : List Nat) (pos : Nat) : Option (FileEntry × Nat) :=
  if pos + 2 > data.length then none
  else
    match readU16at data pos with
    | none => none
    | some flen =>
      if pos + 2 + flen > data.length then none
      else
        match utf8Decode ((data.drop (pos + 2)).take flen) with
        | none => none
        | some fname =>
          let p := pos + 2 + flen
          if p + 16 > data.length then none
          else
            match readU64at data p, readU64at data (p + 8),
                readU32at data (p + 16) with
            | some osize, some csize, some crc =>
              if p + 20 + csize > data.length then none
              else
                some (⟨fname, osize, csize, (data.drop (p + 20)).take csize,
                  crc⟩, p + 20 + csize)
            | _, _, _ => none

/-- The entry-reading loop of `ArchiveFormat.read_archive`. -/
def readEntries (data : List Nat) : Nat → Nat → Option (List FileEntry × Nat)
  | 0, pos => some ([], pos)
  | n + 1, pos =>
    match read_entry data pos with
    | none => none
    | some (e, p') =>
      match readEntries data n p' with
      | none => none
      | some (es, p'') => some (e :: es, p'')

/-- `ArchiveFormat.read_archive`: header checks (length, magic, version),
`u32` entry count, then the entry loop. -/
def read_archive (data : List Nat) : Option (List FileEntry) :=
  if data.length < 16 then none
  else if (data.take 16).take 4 ≠ [76, 90, 72, 65] then none
  else if (data.take 16).getD 4 0 ≠ 1 then none
  else if 16 + 4 > data.length then none
  else
    match readU32at data 16 with
    | none => none
    | some count => (readEntries data count 20).map Prod.fst

/-! ### Container round-trip -/

theorem utf8DecodeChar_encodeChar (c : Nat) (hc1 : c < 0x110000)
    (hc2 : ¬(0xD800 ≤ c ∧ c < 0xE000)) (rest : List Nat) :
    utf8DecodeChar (utf8EncodeChar c ++ rest) = some (c, rest) := by
  rw [utf8EncodeChar]
  by_cases h1 : c < 0x80
  · rw [if_pos h1]
    show utf8DecodeChar (c :: rest) = _
    rw [utf8DecodeChar, if_pos h1]
  · rw [if_neg h1]
    by_cases h2 : c < 0x800
    · rw [if_pos h2]
      show utf8DecodeChar ((0xC0 + c / 0x40) :: (0x80 + c % 0x40) :: rest) = _
      rw [utf8DecodeChar]
      simp only [List.getD_cons_zero, List.getD_cons_succ, List.length_cons,
        List.drop_succ_cons, List.drop_zero, isCont]
      rw [if_neg (by omega), if_neg (by omega), if_pos (by omega),
        if_pos (by omega)]
      simp only [Option.some.injEq, Prod.mk.injEq]
      exact ⟨by omega, trivial⟩
    · rw [if_neg h2]
      by_cases h3 : c < 0x10000
      · rw [if_pos h3]
        show utf8DecodeChar ((0xE0 + c / 0x1000) :: (0x80 + c / 0x40 % 0x40) ::
          (0x80 + c % 0x40) :: rest) = _
        rw [utf8DecodeChar]
        simp only [List.getD_cons_zero, List.getD_cons_succ, List.length_cons,
          List.drop_succ_cons, List.drop_zero, isCont]
        rw [if_neg (by omega), if_neg (by omega), if_neg (by omega),
          if_pos (by omega), if_pos (by omega), if_neg (by omega)]
        simp only [Option.some.injEq, Prod.mk.injEq]
        exact ⟨by omega, trivial⟩
      · rw [if_neg h3]
        show utf8DecodeChar ((0xF0 + c / 0x40000) ::
          (0x80 + c / 0x1000 % 0x40) :: (0x80 + c / 0x40 % 0x40) ::
          (0x80 + c % 0x40) :: rest) = _
        rw [utf8DecodeChar]
        simp only [List.getD_cons_zero, List.getD_cons_succ, List.length_cons,
          List.drop_succ_cons, List.drop_zero, isCont]
        rw [if_neg (by omega), if_neg (by omega), if_neg (by omega),
          if_neg (by omega), if_pos (by omega), if_pos (by omega),
          if_neg (by omega)]
        simp only [Option.some.injEq, Prod.mk.injEq]
        exact ⟨by omega, trivial⟩

theorem utf8Decode_cons_eq (b : Nat) (tl : List Nat) (c : Nat)
    (rest' : List Nat) (h : utf8DecodeChar (b :: tl) = some (c, rest')) :
    utf8Decode (b :: tl) = (utf8Decode rest').map (c :: ·) := by
  rw [utf8Decode]
  split
  · next hc => rw [h] at hc; cases hc
  · next c2 rest2 hc =>
    rw [h] at hc
    injection hc with hc
    injection hc with hc1 hc2
    rw [hc1, hc2]

theorem utf8EncodeChar_ne_nil (c : Nat) : utf8EncodeChar c ≠ [] := by
  rw [utf8EncodeChar]
  split_ifs <;> simp

theorem utf8Decode_encode (s : List Nat) (hs : ∀ c ∈ s, validCodepoint c) :
    utf8Decode (utf8Encode s) = some s := by
  induction s with
  | nil => rw [show utf8Encode [] = [] from rfl, utf8Decode]
  | cons c s ih =>
    obtain ⟨hc1, hc2⟩ := hs c (List.mem_cons_self c s)
    have hchar : utf8Encode (c :: s) = utf8EncodeChar c ++ utf8Encode s := by
      rw [utf8Encode, utf8Encode, List.map_cons, List.flatten_cons]
    rcases hsh : utf8EncodeChar c ++ utf8Encode s with - | ⟨b, tl⟩
    · exact absurd (List.append_eq_nil.mp hsh).1 (utf8EncodeChar_ne_nil c)
    · rw [hchar, hsh]
      rw [utf8Decode_cons_eq b tl c (utf8Encode s)
        (by rw [← hsh]; exact utf8DecodeChar_encodeChar c hc1 hc2 _)]
      rw [ih (fun x hx => hs x (List.mem_cons_of_mem c hx))]
      rfl

theorem drop_add (l : List Nat) (n m : Nat) :
    l.drop (n + m) = (l.drop n).drop m := by
  rw [List.drop_drop, Nat.add_comm]

theorem readU16at_spec (data : List Nat) (pos v : Nat) (hv : v < 2 ^ 16)
    (suf : List Nat) (h : data.drop pos = le16 v ++ suf) :
    readU16at data pos = some v := by
  rw [readU16at, h, le16]
  simp only [List.cons_append, List.nil_append, List.take_succ_cons,
    List.take_zero]
  congr 1
  omega

theorem readU32at_spec (data : List Nat) (pos v : Nat) (hv : v < 2 ^ 32)
    (suf : List Nat) (h : data.drop pos = le32 v ++ suf) :
    readU32at data pos = some v := by
  rw [readU32at, h, le32]
  simp only [List.cons_append, List.nil_append, List.take_succ_cons,
    List.take_zero]
  congr 1
  omega

theorem readU64at_spec (data : List Nat) (pos v : Nat) (hv : v < 2 ^ 64)
    (suf : List Nat) (h : data.drop pos = le64 v ++ suf) :
    readU64at data pos = some v := by
  rw [readU64at, h, le64]
  simp only [List.cons_append, List.nil_append, List.take_succ_cons,
    List.take_zero]
  congr 1
  omega

/-- The invariants of §3 of the specification, as instantiated by C9. -/
def entryInvariants (e : FileEntry) : Prop :=
  e.compressed_size = e.compressed_data.length ∧
  (∀ c ∈ e.filename, validCodepoint c) ∧
  (utf8Encode e.filename).length < 2 ^ 16 ∧
  e.original_size < 2 ^ 64 ∧ e.compressed_size < 2 ^ 64 ∧ e.crc32 < 2 ^ 32

instance : DecidablePred entryInvariants := by
  intro e; rw [entryInvariants]; infer_instance

theorem read_entry_chunk (data : List Nat) (pos : Nat) (e : FileEntry)
    (he : entryInvariants e) (chunk suf : List Nat)
    (hchunk : write_entry e = some chunk) (hpos : pos ≤ data.length)
    (hdrop : data.drop pos = chunk ++ suf) :
    read_entry data pos = some (e, pos + chunk.length) := by
  obtain ⟨hsz, hfn, hfl, ho, hcs, hcrc⟩ := he
  rw [write_entry, if_pos ⟨hfl, ho, hcs, hcrc⟩] at hchunk
  set fb := utf8Encode e.filename with hfb
  injection hchunk with hchunk
  have hchunklen : chunk.length = 22 + fb.length + e.compressed_data.length := by
    rw [← hchunk]
    simp only [List.length_append,
      show (le16 fb.length).length = 2 from rfl,
      show (le64 e.original_size).length = 8 from rfl,
      show (le64 e.compressed_size).length = 8 from rfl,
      show (le32 e.crc32).length = 4 from rfl]
    omega
  have hdatalen : data.length = pos + chunk.length + suf.length := by
    have := List.length_drop pos data
    rw [hdrop] at this
    simp only [List.length_append] at this
    omega
  have hd0 : data.drop pos = le16 fb.length ++ (fb ++ le64 e.original_size ++
      le64 e.compressed_size ++ le32 e.crc32 ++ e.compressed_data ++ suf) := by
    rw [hdrop, ← hchunk]
    simp [List.append_assoc]
  rw [read_entry]
  rw [if_neg (by omega)]
  rw [readU16at_spec data pos fb.length hfl _ hd0]
  simp only []
  rw [if_neg (by omega)]
  have hd2 : data.drop (pos + 2) = fb ++ (le64 e.original_size ++
      le64 e.compressed_size ++ le32 e.crc32 ++ e.compressed_data ++ suf) := by
    rw [drop_add data pos 2, hd0,
      show (2 : Nat) = (le16 fb.length).length from rfl, List.drop_left]
    simp [List.append_assoc]
  have hfbytes : (data.drop (pos + 2)).take fb.length = fb := by
    rw [hd2, List.take_left]
  rw [hfbytes,
    show utf8Decode fb = some e.filename from utf8Decode_encode e.filename hfn]
  simp only []
  rw [if_neg (by omega)]
  have hdp : data.drop (pos + 2 + fb.length) = le64 e.original_size ++
      (le64 e.compressed_size ++ le32 e.crc32 ++ e.compressed_data ++ suf) := by
    rw [drop_add data (pos + 2) fb.length, hd2, List.drop_left]
    simp [List.append_assoc]
  rw [readU64at_spec data _ e.original_size ho _ hdp]
  have hdp8 : data.drop (pos + 2 + fb.length + 8) = le64 e.compressed_size ++
      (le32 e.crc32 ++ e.compressed_data ++ suf) := by
    rw [drop_add data (pos + 2 + fb.length) 8, hdp]
    rw [show (8 : Nat) = (le64 e.original_size).length from rfl, List.drop_left]
    simp [List.append_assoc]
  rw [readU64at_spec data _ e.compressed_size hcs _ hdp8]
  have hdp16 : data.drop (pos + 2 + fb.length + 16) = le32 e.crc32 ++
      (e.compressed_data ++ suf) := by
    rw [show pos + 2 + fb.length + 16 = pos + 2 + fb.length + 8 + 8 from by
        omega,
      drop_add data (pos + 2 + fb.length + 8) 8, hdp8]
    rw [show (8 : Nat) = (le64 e.compressed_size).length from rfl,
      List.drop_left]
    simp [List.append_assoc]
  rw [readU32at_spec data _ e.crc32 hcrc _ hdp16]
  simp only []
  rw [if_neg (by omega)]
  have hdp20 : data.drop (pos + 2 + fb.length + 20) =
      e.compressed_data ++ suf := by
    rw [show pos + 2 + fb.length + 20 = pos + 2 + fb.length + 16 + 4 from by
        omega,
      drop_add data (pos + 2 + fb.length + 16) 4, hdp16]
    rw [show (4 : Nat) = (le32 e.crc32).length from rfl, List.drop_left]
  have hcdata : (data.drop (pos + 2 + fb.length + 20)).take e.compressed_size =
      e.compressed_data := by
    rw [hdp20, hsz, List.take_left]
  rw [hcdata]
  have hentry : (⟨e.filename, e.original_size, e.compressed_size,
      e.compressed_data, e.crc32⟩ : FileEntry) = e := rfl
  rw [hentry]
  congr 2
  omega

theorem writeEntries_isSome (entries : List FileEntry)
    (hinv : ∀ e ∈ entries, entryInvariants e) :
    ∃ body, writeEntries entries = some body := by
  induction entries with
  | nil => exact ⟨[], rfl⟩
  | cons e es ih =>
    obtain ⟨body, hbody⟩ := ih (fun x hx => hinv x (List.mem_cons_of_mem e hx))
    obtain ⟨h1, h2, h3, h4, h5, h6⟩ := hinv e (List.mem_cons_self e es)
    refine ⟨(le16 (utf8Encode e.filename).length ++ utf8Encode e.filename ++
      le64 e.original_size ++ le64 e.compressed_size ++ le32 e.crc32 ++
      e.compressed_data) ++ body, ?_⟩
    rw [writeEntries, write_entry, if_pos ⟨h3, h4, h5, h6⟩, hbody]

theorem readEntries_spec (data : List Nat) :
    ∀ (entries : List FileEntry) (pos : Nat) (body : List Nat),
      (∀ e ∈ entries, entryInvariants e) →
      writeEntries entries = some body →
      pos ≤ data.length → data.drop pos = body →
      readEntries data entries.length pos = some (entries, pos + body.length) := by
  intro entries
  induction entries with
  | nil =>
    intro pos body _ hw hpos hdrop
    rw [writeEntries] at hw
    injection hw with hw
    rw [List.length_nil, readEntries, ← hw]
    rfl
  | cons e es ih =>
    intro pos body hinv hw hpos hdrop
    rw [writeEntries] at hw
    rcases hwe : write_entry e with - | chunk
    · rw [hwe] at hw; cases hw
    · rw [hwe] at hw
      rcases hws : writeEntries es with - | rest
      · rw [hws] at hw; cases hw
      · rw [hws] at hw
        injection hw with hw
        subst hw
        have hdatalen : data.length = pos + chunk.length + rest.length := by
          have := List.length_drop pos data
          rw [hdrop] at this
          simp only [List.length_append] at this
          omega
        rw [List.length_cons, readEntries]
        rw [read_entry_chunk data pos e (hinv e (List.mem_cons_self e es))
          chunk rest hwe hpos hdrop]
        simp only []
        have hdrop' : data.drop (pos + chunk.length) = rest := by
          rw [drop_add data pos chunk.length, hdrop, List.drop_left]
        rw [ih (pos + chunk.length) rest
          (fun x hx => hinv x (List.mem_cons_of_mem e hx)) hws
          (by omega) hdrop']
        simp only [List.length_append]
        rw [show pos + chunk.length + rest.length =
          pos + (chunk.length + rest.length) from by omega]

/-- C9: reading back a created archive recovers the entry list
field-for-field. -/
theorem archive_roundtrip (entries : List FileEntry)
    (hinv : ∀ e ∈ entries, entryInvariants e)
    (hcount : entries.length < 2 ^ 32) :
    ∃ a, create_archive entries = some a ∧ read_archive a = some entries := by
  obtain ⟨body, hbody⟩ := writeEntries_isSome entries hinv
  refine ⟨headerBytes ++ le32 entries.length ++ body, ?_, ?_⟩
  · rw [create_archive, if_pos hcount, hbody]
    rfl
  · set a := headerBytes ++ le32 entries.length ++ body with ha
    have halen : a.length = 20 + body.length := by
      rw [ha]; simp [headerBytes, le32]; omega
    have htake16 : a.take 16 = headerBytes := by
      rw [ha, List.append_assoc,
        show (16 : Nat) = headerBytes.length from rfl, List.take_left]
    have hdrop16 : a.drop 16 = le32 entries.length ++ body := by
      rw [ha, List.append_assoc,
        show (16 : Nat) = headerBytes.length from rfl, List.drop_left]
    rw [read_archive]
    rw [if_neg (by omega)]
    rw [htake16]
    rw [if_neg (by decide), if_neg (by decide), if_neg (by omega)]
    rw [readU32at_spec a 16 entries.length hcount body hdrop16]
    simp only []
    have hdrop20 : a.drop 20 = body := by
      rw [show (20 : Nat) = 16 + 4 from rfl, drop_add a 16 4, hdrop16,
        show (4 : Nat) = (le32 entries.length).length from rfl, List.drop_left]
    rw [readEntries_spec a entries 20 body hinv hbody (by omega) hdrop20]
    rfl


/-- Closed witness for `archive_roundtrip` at a concrete two-entry list
(one filename is non-ASCII). -/
theorem archive_roundtrip_witness :
    (∀ e ∈ [(⟨[97, 1090], 7, 1, [9], 3⟩ : FileEntry),
        ⟨[98], 0, 0, [], 0⟩], entryInvariants e) ∧
      ∃ a, create_archive [⟨[97, 1090], 7, 1, [9], 3⟩, ⟨[98], 0, 0, [], 0⟩] =
          some a ∧
        read_archive a =
          some [⟨[97, 1090], 7, 1, [9], 3⟩, ⟨[98], 0, 0, [], 0⟩] :=
  ⟨by decide, archive_roundtrip _ (by decide) (by decide)⟩

end Format


namespace Huffman

/-! ## huffman.py — Huffman coder

`HuffmanNode` has an optional symbol and optional children; the shapes that
actually occur are leaves, two-child internal nodes, and the one-child root
wrapped around a single symbol, so the embedding uses a three-constructor
tree.  `__lt__` compares frequencies only. -/

inductive HNode where
  | leaf (char freq : Nat)
  | node2 (freq : Nat) (left right : HNode)
  | node1 (freq : Nat) (left : HNode)
deriving DecidableEq, Repr

def HNode.freq : HNode → Nat
  | .leaf _ f => f
  | .node2 f _ _ => f
  | .node1 f _ => f

/-- The symbols at the leaves, in left-to-right order. -/
def HNode.leafChars : HNode → List Nat
  | .leaf ch _ => [ch]
  | .node2 _ l r => l.leafChars ++ r.leafChars
  | .node1 _ l => l.leafChars

def HNode.depth : HNode → Nat
  | .leaf _ _ => 0
  | .node2 _ l r => 1 + max l.depth r.depth
  | .node1 _ l => 1 + l.depth

def dummyNode : HNode := HNode.leaf 0 0

/-! ### CPython `heapq`, embedded verbatim on lists -/

/-- `heapq._siftdown(heap, startpos, pos)` with `newitem = heap[pos]` carried
explicitly: while `pos > startpos`, move the parent down if
`newitem < parent`, else stop; finally store `newitem`. -/
def siftdownLoop (heap : List HNode) (startpos pos : Nat) (newitem : HNode) :
    List HNode :=
  if startpos < pos then
    if newitem.freq < (heap.getD ((pos - 1) / 2) dummyNode).freq then
      siftdownLoop (heap.set pos (heap.getD ((pos - 1) / 2) dummyNode))
        startpos ((pos - 1) / 2) newitem
    else heap.set pos newitem
  else heap.set pos newitem
termination_by pos
decreasing_by omega

/-- `heapq._siftup(heap, pos)`: bubble the smaller child up to the root of
the subtree until a leaf position is reached, then `_siftdown` the saved
item.  The two branches select the right or left child as `childpos`. -/
def siftupLoop (heap : List HNode) (endpos startpos pos : Nat)
    (newitem : HNode) : List HNode :=
  if 2 * pos + 1 < endpos then
    if 2 * pos + 2 < endpos ∧
        ¬(heap.getD (2 * pos + 1) dummyNode).freq <
          (heap.getD (2 * pos + 2) dummyNode).freq then
      siftupLoop (heap.set pos (heap.getD (2 * pos + 2) dummyNode)) endpos
        startpos (2 * pos + 2) newitem
    else
      siftupLoop (heap.set pos (heap.getD (2 * pos + 1) dummyNode)) endpos
        startpos (2 * pos + 1) newitem
  else siftdownLoop (heap.set pos newitem) startpos pos newitem
termination_by endpos - pos
decreasing_by
  all_goals omega

def _siftup (heap : List HNode) (pos : Nat) : List HNode :=
  siftupLoop heap heap.length pos pos (heap.getD pos dummyNode)

/-- `heapq.heappush`. -/
def heappush (heap : List HNode) (item : HNode) : List HNode :=
  siftdownLoop (heap ++ [item]) 0 heap.length item

/-- `heapq.heappop`: pop the last element; if the heap is still non-empty,
move it to the root and sift; popping an empty heap raises (`none`). -/
def heappop (heap : List HNode) : Option (HNode × List HNode) :=
  match heap with
  | [] => none
  | x :: xs =>
    if (x :: xs).dropLast.isEmpty then some ((x :: xs).getLastD dummyNode, [])
    else
      some (((x :: xs).dropLast.getD 0 dummyNode),
        _siftup (((x :: xs).dropLast).set 0 ((x :: xs).getLastD dummyNode)) 0)

/-- `heapq.heapify`: sift every non-leaf position, last first. -/
def heapify (heap : List HNode) : List HNode :=
  (List.range (heap.length / 2)).reverse.foldl _siftup heap

theorem siftdownLoop_length (heap : List HNode) (startpos pos : Nat)
    (newitem : HNode) :
    (siftdownLoop heap startpos pos newitem).length = heap.length := by
  induction heap, startpos, pos, newitem using siftdownLoop.induct with
  | case1 heap startpos pos newitem h1 h2 ih =>
    rw [siftdownLoop, if_pos h1, if_pos h2, ih, List.length_set]
  | case2 heap startpos pos newitem h1 h2 =>
    rw [siftdownLoop, if_pos h1, if_neg h2, List.length_set]
  | case3 heap startpos pos newitem h1 =>
    rw [siftdownLoop, if_neg h1, List.length_set]

theorem siftupLoop_length (heap : List HNode) (endpos startpos pos : Nat)
    (newitem : HNode) :
    (siftupLoop heap endpos startpos pos newitem).length = heap.length := by
  induction heap, endpos, startpos, pos, newitem using siftupLoop.induct with
  | case1 heap endpos startpos pos newitem h1 h2 ih =>
    rw [siftupLoop, if_pos h1, if_pos h2, ih, List.length_set]
  | case2 heap endpos startpos pos newitem h1 h2 ih =>
    rw [siftupLoop, if_pos h1, if_neg h2, ih, List.length_set]
  | case3 heap endpos startpos pos newitem h1 =>
    rw [siftupLoop, if_neg h1, siftdownLoop_length, List.length_set]

theorem _siftup_length (heap : List HNode) (pos : Nat) :
    (_siftup heap pos).length = heap.length := by
  rw [_siftup, siftupLoop_length]

theorem heappush_length (heap : List HNode) (item : HNode) :
    (heappush heap item).length = heap.length + 1 := by
  rw [heappush, siftdownLoop_length, List.length_append, List.length_cons,
    List.length_nil]

theorem heappop_length (heap : List HNode) (x : HNode) (rest : List HNode)
    (h : heappop heap = some (x, rest)) : rest.length = heap.length - 1 := by
  match heap with
  | [] => cases h
  | y :: ys =>
    rw [heappop] at h
    split_ifs at h with hemp
    · injection h with h
      injection h with h1 h2
      rw [← h2, List.length_nil]
      have := List.isEmpty_iff.mp hemp
      have hlen := congrArg List.length this
      simp only [List.length_dropLast, List.length_cons, List.length_nil]
        at hlen ⊢
      omega
    · injection h with h
      injection h with h1 h2
      rw [← h2, _siftup_length, List.length_set, List.length_dropLast,
        List.length_cons]

theorem heapify_length (heap : List HNode) :
    (heapify heap).length = heap.length := by
  rw [heapify]
  generalize (List.range (heap.length / 2)).reverse = idxs
  induction idxs generalizing heap with
  | nil => rfl
  | cons i idxs ih =>
    rw [List.foldl_cons, ih, _siftup_length]

/-! ### Tree construction (`HuffmanTree.build`) -/

/-- `collections.Counter` keys in first-occurrence order. -/
def uniqueFirst (data : List Nat) : List Nat :=
  data.foldl (fun acc b => if b ∈ acc then acc else acc ++ [b]) []

/-- `Counter(data).items()`: symbol/frequency pairs, first occurrence
first. -/
def frequencies (data : List Nat) : List (Nat × Nat) :=
  (uniqueFirst data).map (fun b => (b, data.count b))

/-- The merge loop of `HuffmanTree.build`: while more than one node remains,
pop the two smallest and push their parent. -/
def buildLoop (heap : List HNode) : List HNode :=
  if h : 1 < heap.length then
    match hp1 : heappop heap with
    | none => heap
    | some (left, h1) =>
      match hp2 : heappop h1 with
      | none => h1
      | some (right, h2) =>
        buildLoop (heappush h2 (HNode.node2 (left.freq + right.freq) left right))
  else heap
termination_by heap.length
decreasing_by
  have e1 := heappop_length heap left h1 hp1
  have e2 := heappop_length h1 right h2 hp2
  rw [heappush_length]
  omega

/-- The branch structure of `HuffmanTree.build` on the heapified leaves:
`None` root for an empty table, a one-child root for a single symbol,
otherwise repeated merging with `heap[0]` as the root. -/
def buildRoot (heap : List HNode) : Option HNode :=
  if heap.length = 0 then none
  else if heap.length = 1 then
    match heappop heap with
    | some (n, _) => some (HNode.node1 n.freq n)
    | none => none
  else
    match buildLoop heap with
    | root :: _ => some root
    | [] => none

/-- `HuffmanTree.build`. -/
def build (data : List Nat) : Option HNode :=
  buildRoot (heapify ((frequencies data).map (fun p => HNode.leaf p.1 p.2)))

/-- `HuffmanTree._generate_codes`: depth-first traversal, `'0'` (byte 48)
for a left edge and `'1'` (byte 49) for a right edge; a leaf reached with an
empty code gets `'0'`.  Codes are the serialized ASCII byte lists. -/
def genCodes : HNode → List Nat → List (Nat × List Nat)
  | .leaf ch _, code => [(ch, if code.isEmpty then [48] else code)]
  | .node2 _ l r, code => genCodes l (code ++ [48]) ++ genCodes r (code ++ [49])
  | .node1 _ l, code => genCodes l (code ++ [48])

/-! ### Table serialization (`HuffmanTree.serialize` / `deserialize`) -/

/-- Per-entry serialization: symbol byte, code length byte, ASCII code
bytes.  `struct.pack('B', ·)` range failures are `none`. -/
def serializeEntries : List (Nat × List Nat) → Option (List Nat)
  | [] => some []
  | (ch, code) :: rest =>
    if ch < 256 ∧ code.length < 256 then
      (serializeEntries rest).map (fun r => ch :: code.length :: (code ++ r))
    else none

/-- `HuffmanTree.serialize`: `u16` code count then the entries; an empty
table is just a zero count. -/
def serializeTree (codes : List (Nat × List Nat)) : Option (List Nat) :=
  if codes.length = 0 then some (Format.le16 0)
  else if codes.length < 2 ^ 16 then
    (serializeEntries codes).map (Format.le16 codes.length ++ ·)
  else none

/-- The entry loop of `HuffmanTree.deserialize`: reads `count` entries,
`break`ing (returning what was read) on truncation; a non-ASCII code byte
makes `bytes.decode('ascii')` raise (`none`). -/
def deserializeEntries : Nat → List Nat → Option (List (Nat × List Nat))
  | 0, _ => some []
  | n + 1, bs =>
    match bs with
    | ch :: clen :: rest =>
      if clen ≤ rest.length then
        if (rest.take clen).all (· < 128) then
          (deserializeEntries n (rest.drop clen)).map
            ((ch, rest.take clen) :: ·)
        else none
      else some []
    | _ => some []

/-- `HuffmanTree.deserialize`: `u16` count then the entries; short or empty
input gives an empty table. -/
def deserializeTree (bs : List Nat) : Option (List (Nat × List Nat)) :=
  match bs with
  | b0 :: b1 :: rest =>
    if b0 + 256 * b1 = 0 then some [] else deserializeEntries (b0 + 256 * b1) rest
  | _ => some []

/-! ### Bit stream (`BitStream`) -/

/-- One byte MSB-first, as written by `BitStream.to_bytes`. -/
def packByte (b0 b1 b2 b3 b4 b5 b6 b7 : Bool) : Nat :=
  ((((((b0.toNat * 2 + b1.toNat) * 2 + b2.toNat) * 2 + b3.toNat) * 2 +
    b4.toNat) * 2 + b5.toNat) * 2 + b6.toNat) * 2 + b7.toNat

def packBytes : List Bool → List Nat
  | b0 :: b1 :: b2 :: b3 :: b4 :: b5 :: b6 :: b7 :: rest =>
    packByte b0 b1 b2 b3 b4 b5 b6 b7 :: packBytes rest
  | _ => []

/-- `BitStream.to_bytes`: pad with zero bits to a byte boundary, then a
leading padding-count byte and the packed bytes. -/
def bitsToBytes (bits : List Bool) : List Nat :=
  (8 - bits.length % 8) % 8 ::
    packBytes (bits ++ List.replicate ((8 - bits.length % 8) % 8) false)

/-- One byte unpacked MSB-first, as read by `BitStream.from_bytes`. -/
def unpackByte (b : Nat) : List Bool :=
  [b.testBit 7, b.testBit 6, b.testBit 5, b.testBit 4, b.testBit 3,
   b.testBit 2, b.testBit 1, b.testBit 0]

/-- `BitStream.from_bytes`: unpack every byte after the padding-count byte,
then strip that many trailing bits. -/
def bytesToBits : List Nat → List Bool
  | [] => []
  | padding :: rest =>
    if padding > 0 then
      (rest.flatMap unpackByte).take ((rest.flatMap unpackByte).length - padding)
    else rest.flatMap unpackByte

/-! ### Encoder / decoder (`HuffmanEncoder`) -/

/-- `tree.codes.get(byte, '0')`. -/
def codeOf (codes : List (Nat × List Nat)) (b : Nat) : List Nat :=
  match codes.find? (fun p => p.1 == b) with
  | some p => p.2
  | none => [48]

/-- `current_code in tree.decode_table` / `tree.decode_table[current_code]`
(codes in any reachable table are distinct, so first match is the dict
semantics). -/
def charOfCode (table : List (Nat × List Nat)) (code : List Nat) :
    Option Nat :=
  match table.find? (fun p => p.2 == code) with
  | some p => some p.1
  | none => none

/-- The bit loop of `HuffmanEncoder.encode`: concatenate each byte's code
and convert the ASCII code characters to bits (`int('1') = 1`). -/
def encodeBits (codes : List (Nat × List Nat)) (data : List Nat) :
    List Bool :=
  data.flatMap (fun b => (codeOf codes b).map (fun ch => ch == 49))

/-- `HuffmanEncoder.encode`: `(tree bytes, payload bytes)`. -/
def HuffmanEncoder_encode (data : List Nat) :
    Option (List Nat × List Nat) :=
  if data.isEmpty then (serializeTree []).map (·, [])
  else
    match build data with
    | none => none
    | some root =>
      (serializeTree (genCodes root [])).map
        (·, bitsToBytes (encodeBits (genCodes root []) data))

/-- The bit loop of `HuffmanEncoder.decode`: accumulate code characters
until they match a table entry, emit that symbol (a `bytearray` append
raises at 256), reset; leftover bits are dropped. -/
def decodeBitsLoop (table : List (Nat × List Nat)) :
    List Bool → List Nat → List Nat → Option (List Nat)
  | [], _, out => some out
  | bit :: bits, cur, out =>
    match charOfCode table (cur ++ [if bit then 49 else 48]) with
    | some ch =>
      if ch < 256 then decodeBitsLoop table bits [] (out ++ [ch]) else none
    | none => decodeBitsLoop table bits (cur ++ [if bit then 49 else 48]) out

/-- `HuffmanEncoder.decode`. -/
def HuffmanEncoder_decode (tree_data encoded : List Nat) :
    Option (List Nat) :=
  match deserializeTree tree_data with
  | none => none
  | some table =>
    if table.isEmpty then some []
    else decodeBitsLoop table (bytesToBits encoded) [] []

/-- `compress_with_huffman`: `u32` tree size, tree, `u32` payload size,
payload. -/
def compress_with_huffman (data : List Nat) : Option (List Nat) :=
  match HuffmanEncoder_encode data with
  | none => none
  | some (td, ed) =>
    if td.length < 2 ^ 32 ∧ ed.length < 2 ^ 32 then
      some (Format.le32 td.length ++ td ++ Format.le32 ed.length ++ ed)
    else none

/-- `decompress_with_huffman`: framing checks return `b''` on any
truncation. -/
def decompress_with_huffman (data : List Nat) : Option (List Nat) :=
  if data.length < 8 then some []
  else
    match Format.readU32at data 0 with
    | none => some []
    | some tree_size =>
      if 4 + tree_size > data.length then some []
      else
        match Format.readU32at data (4 + tree_size) with
        | none => some []
        | some encoded_size =>
          if 4 + tree_size + 4 + encoded_size > data.length then some []
          else
            HuffmanEncoder_decode ((data.drop 4).take tree_size)
              ((data.drop (4 + tree_size + 4)).take encoded_size)

/-! ### Heap operations permute their contents -/

theorem set_self_eq (l : List HNode) (n : Nat) (h : n < l.length) :
    l.set n (l.getD n dummyNode) = l := by
  apply List.ext_getElem
  · simp
  · intro i h1 h2
    by_cases hin : i = n
    · subst hin
      rw [List.getElem_set_self, List.getD_eq_getElem l dummyNode h]
    · rw [List.getElem_set_ne (fun hh => hin hh.symm)]

theorem set_set_perm (l : List HNode) (i j : Nat) (a : HNode)
    (hi : i < l.length) (hj : j < l.length) (hne : i ≠ j) :
    ((l.set i (l.getD j dummyNode)).set j a).Perm (l.set i a) := by
  rw [List.perm_iff_count]
  intro x
  have hgd : l.getD j dummyNode = l[j] := List.getD_eq_getElem l dummyNode hj
  have hj2 : j < (l.set i (l.getD j dummyNode)).length := by
    rw [List.length_set]; exact hj
  rw [List.count_set _ _ _ _ hj2, List.count_set _ _ _ _ hi,
    List.count_set _ _ _ _ hi, List.getElem_set_ne hne]
  simp only [hgd]
  have hcnt : (if (l[i] == x) = true then 1 else 0) ≤ List.count x l := by
    split_ifs with hh
    · exact List.count_pos_iff.mpr ((eq_of_beq hh) ▸ l.getElem_mem hi)
    · omega
  set A := (if (l[i] == x) = true then 1 else 0) with hA
  set B := (if (l[j] == x) = true then 1 else 0) with hB
  set C := (if (a == x) = true then 1 else 0) with hC
  omega

theorem siftdownLoop_perm (heap : List HNode) (startpos pos : Nat)
    (newitem : HNode) (hpos : pos < heap.length) :
    (siftdownLoop heap startpos pos newitem).Perm (heap.set pos newitem) := by
  induction heap, startpos, pos, newitem using siftdownLoop.induct with
  | case1 heap startpos pos newitem h1 h2 ih =>
    rw [siftdownLoop, if_pos h1, if_pos h2]
    have hpp : (pos - 1) / 2 < (heap.set pos
        (heap.getD ((pos - 1) / 2) dummyNode)).length := by
      rw [List.length_set]; omega
    exact (ih hpp).trans
      (set_set_perm heap pos ((pos - 1) / 2) newitem hpos (by omega)
        (by omega))
  | case2 heap startpos pos newitem h1 h2 =>
    rw [siftdownLoop, if_pos h1, if_neg h2]
  | case3 heap startpos pos newitem h1 =>
    rw [siftdownLoop, if_neg h1]

theorem siftupLoop_perm (heap : List HNode) (endpos startpos pos : Nat)
    (newitem : HNode) (hpos : pos < heap.length)
    (hend : endpos ≤ heap.length) :
    (siftupLoop heap endpos startpos pos newitem).Perm
      (heap.set pos newitem) := by
  induction heap, endpos, startpos, pos, newitem using siftupLoop.induct with
  | case1 heap endpos startpos pos newitem h1 h2 ih =>
    rw [siftupLoop, if_pos h1, if_pos h2]
    have hcp : 2 * pos + 2 < heap.length := by omega
    have hlen : (heap.set pos (heap.getD (2 * pos + 2) dummyNode)).length =
        heap.length := List.length_set ..
    exact (ih (by rw [hlen]; omega) (by rw [hlen]; omega)).trans
      (set_set_perm heap pos (2 * pos + 2) newitem hpos hcp (by omega))
  | case2 heap endpos startpos pos newitem h1 h2 ih =>
    rw [siftupLoop, if_pos h1, if_neg h2]
    have hcp : 2 * pos + 1 < heap.length := by omega
    have hlen : (heap.set pos (heap.getD (2 * pos + 1) dummyNode)).length =
        heap.length := List.length_set ..
    exact (ih (by rw [hlen]; omega) (by rw [hlen]; omega)).trans
      (set_set_perm heap pos (2 * pos + 1) newitem hpos hcp (by omega))
  | case3 heap endpos startpos pos newitem h1 =>
    rw [siftupLoop, if_neg h1]
    have h := siftdownLoop_perm (heap.set pos newitem) startpos pos newitem
      (by rw [List.length_set]; exact hpos)
    rw [List.set_set] at h
    exact h

theorem _siftup_perm (heap : List HNode) (pos : Nat)
    (hpos : pos < heap.length) : (_siftup heap pos).Perm heap := by
  rw [_siftup]
  have h := siftupLoop_perm heap heap.length pos pos
    (heap.getD pos dummyNode) hpos (le_refl _)
  rw [set_self_eq heap pos hpos] at h
  exact h

theorem heappush_perm (heap : List HNode) (item : HNode) :
    (heappush heap item).Perm (heap ++ [item]) := by
  rw [heappush]
  have hlen : heap.length < (heap ++ [item]).length := by simp
  have h := siftdownLoop_perm (heap ++ [item]) 0 heap.length item hlen
  have hset : (heap ++ [item]).set heap.length item = heap ++ [item] := by
    have hgd : (heap ++ [item]).getD heap.length dummyNode = item := by
      rw [List.getD_eq_getElem _ dummyNode hlen]
      simp
    have h0 := set_self_eq (heap ++ [item]) heap.length hlen
    rw [hgd] at h0
    exact h0
  rw [hset] at h
  exact h

theorem heappop_perm (heap : List HNode) (x : HNode) (rest : List HNode)
    (h : heappop heap = some (x, rest)) : (x :: rest).Perm heap := by
  match heap with
  | [] => cases h
  | y :: ys =>
    rw [heappop] at h
    have hne : (y :: ys) ≠ [] := by simp
    have hgl : (y :: ys).getLastD dummyNode = (y :: ys).getLast hne := by
      rw [List.getLastD_eq_getLast?, List.getLast?_eq_getLast _ hne]
      rfl
    have hsplit : (y :: ys).dropLast ++ [(y :: ys).getLastD dummyNode] =
        y :: ys := by
      rw [hgl]
      exact List.dropLast_concat_getLast hne
    split_ifs at h with hemp
    · injection h with h
      injection h with h1 h2
      subst h1
      rw [← h2]
      have hdl : (y :: ys).dropLast = [] := List.isEmpty_iff.mp hemp
      rw [hdl, List.nil_append] at hsplit
      rw [hsplit]
    · injection h with h
      injection h with h1 h2
      subst h1
      rw [← h2]
      have hdlne : (y :: ys).dropLast ≠ [] := by
        intro hh
        rw [hh] at hemp
        exact hemp rfl
      rcases hdl : (y :: ys).dropLast with - | ⟨d0, ds⟩
      · exact absurd hdl hdlne
      · simp only [List.getD_cons_zero, List.set_cons_zero]
        have hperm1 : (_siftup ((y :: ys).getLastD dummyNode :: ds) 0).Perm
            ((y :: ys).getLastD dummyNode :: ds) :=
          _siftup_perm _ 0 (by simp)
        refine (hperm1.cons d0).trans ?_
        have hgoal : (d0 :: (y :: ys).getLastD dummyNode :: ds).Perm
            (d0 :: (ds ++ [(y :: ys).getLastD dummyNode])) :=
          List.Perm.cons d0 (List.perm_append_singleton _ _).symm
        exact hgoal.trans (by rw [← List.cons_append, ← hdl, hsplit])

theorem heapify_perm (heap : List HNode) : (heapify heap).Perm heap := by
  rw [heapify]
  have hbound : ∀ i ∈ (List.range (heap.length / 2)).reverse,
      i < heap.length := by
    intro i hi
    rw [List.mem_reverse, List.mem_range] at hi
    omega
  generalize hidx : (List.range (heap.length / 2)).reverse = idxs at hbound
  clear hidx
  induction idxs generalizing heap with
  | nil => exact List.Perm.refl _
  | cons i idxs ih =>
    rw [List.foldl_cons]
    have hi : i < heap.length := hbound i (List.mem_cons_self i idxs)
    have hperm : (_siftup heap i).Perm heap := _siftup_perm heap i hi
    have hlen : (_siftup heap i).length = heap.length := _siftup_length heap i
    exact (ih (_siftup heap i)
      (fun j hj => hlen ▸ hbound j (List.mem_cons_of_mem i hj))).trans hperm

/-! ### The built tree holds exactly the input symbols -/

def heapChars (heap : List HNode) : List Nat := heap.flatMap HNode.leafChars

/-- A tree built by merging satisfies `depth + 1 ≤ #leaves`. -/
def goodDepth (t : HNode) : Prop := t.depth + 1 ≤ t.leafChars.length

theorem heappop_ne_none (heap : List HNode) (hne : heap ≠ []) :
    heappop heap ≠ none := by
  match heap with
  | [] => exact absurd rfl hne
  | y :: ys =>
    rw [heappop]
    split_ifs <;> simp

theorem heapChars_perm (h1 h2 : List HNode) (h : h1.Perm h2) :
    (heapChars h1).Perm (heapChars h2) :=
  List.Perm.flatMap_right HNode.leafChars h

theorem buildLoop_chars (heap : List HNode) :
    (heapChars (buildLoop heap)).Perm (heapChars heap) := by
  induction heap using buildLoop.induct with
  | case3 heap h left h1 hp1 right h2 hp2 ih =>
    rw [buildLoop, dif_pos h, hp1]
    split
    · next heq => simp at heq
    next r' h2' heq =>
    injection heq with heq1
    injection heq1 with e1' e2'
    subst e1'
    subst e2'
    rw [hp2]
    split
    · next heq2 => simp at heq2
    next r2 h22 heq2 =>
    injection heq2 with heq3
    injection heq3 with e3' e4'
    subst e3'
    subst e4'
    have e1 := heappop_length heap left h1 hp1
    have p1 := heappop_perm heap left h1 hp1
    have p2 := heappop_perm h1 right h2 hp2
    have p3 := heappush_perm h2
      (HNode.node2 (left.freq + right.freq) left right)
    refine ih.trans ?_
    have c3 := heapChars_perm _ _ p3
    have c1 := heapChars_perm _ _ p1
    have c2 := heapChars_perm _ _ p2
    rw [show heapChars (h2 ++ [HNode.node2 (left.freq + right.freq) left
        right]) = heapChars h2 ++ (left.leafChars ++ right.leafChars) from by
      simp [heapChars, List.flatMap_append, HNode.leafChars]] at c3
    rw [show heapChars (left :: h1) = left.leafChars ++ heapChars h1 from
      rfl] at c1
    rw [show heapChars (right :: h2) = right.leafChars ++ heapChars h2 from
      rfl] at c2
    refine c3.trans (List.perm_append_comm.trans ?_)
    rw [List.append_assoc]
    exact (List.Perm.append_left _ c2).trans c1
  | case1 heap h hp1 =>
    rw [buildLoop, dif_pos h, hp1]
  | case2 heap h left h1 hp1 hp2 =>
    have e1 := heappop_length heap left h1 hp1
    exact absurd hp2 (heappop_ne_none h1
      (by intro hh; rw [hh] at e1; simp at e1; omega))
  | case4 heap h =>
    rw [buildLoop, dif_neg h]

theorem buildLoop_length_one (heap : List HNode) (hlen : 1 ≤ heap.length) :
    (buildLoop heap).length = 1 := by
  induction heap using buildLoop.induct with
  | case3 heap h left h1 hp1 right h2 hp2 ih =>
    rw [buildLoop, dif_pos h, hp1]
    split
    · next heq => simp at heq
    next r' h2' heq =>
    injection heq with heq1
    injection heq1 with e1' e2'
    subst e1'
    subst e2'
    rw [hp2]
    split
    · next heq2 => simp at heq2
    next r2 h22 heq2 =>
    injection heq2 with heq3
    injection heq3 with e3' e4'
    subst e3'
    subst e4'
    have e1 := heappop_length heap left h1 hp1
    have e2 := heappop_length h1 right h2 hp2
    exact ih (by rw [heappush_length]; omega)
  | case1 heap h hp1 =>
    exact absurd hp1 (heappop_ne_none heap (by intro hh; rw [hh] at h; simp at h))
  | case2 heap h left h1 hp1 hp2 =>
    have e1 := heappop_length heap left h1 hp1
    exact absurd hp2 (heappop_ne_none h1
      (by intro hh; rw [hh] at e1; simp at e1; omega))
  | case4 heap h =>
    rw [buildLoop, dif_neg h]
    omega

theorem buildLoop_inv (P : HNode → Prop)
    (hmerge : ∀ f l r, P l → P r → P (HNode.node2 f l r)) :
    ∀ heap, (∀ t ∈ heap, P t) → ∀ t ∈ buildLoop heap, P t := by
  intro heap
  induction heap using buildLoop.induct with
  | case3 heap h left h1 hp1 right h2 hp2 ih =>
    intro hall t ht
    rw [buildLoop, dif_pos h, hp1] at ht
    split at ht
    · next heq => simp at heq
    next r' h2' heq =>
    injection heq with heq1
    injection heq1 with e1' e2'
    subst e1'
    subst e2'
    rw [hp2] at ht
    split at ht
    · next heq2 => simp at heq2
    next r2 h22 heq2 =>
    injection heq2 with heq3
    injection heq3 with e3' e4'
    subst e3'
    subst e4'
    have p1 := heappop_perm heap left h1 hp1
    have p2 := heappop_perm h1 right h2 hp2
    have hh1 : ∀ u ∈ h1, P u := fun u hu =>
      hall u (p1.mem_iff.mp (List.mem_cons_of_mem left hu))
    have hleft : P left := hall left (p1.mem_iff.mp (List.mem_cons_self _ _))
    have hright : P right := hh1 right (p2.mem_iff.mp (List.mem_cons_self _ _))
    have hh2 : ∀ u ∈ h2, P u := fun u hu =>
      hh1 u (p2.mem_iff.mp (List.mem_cons_of_mem right hu))
    refine ih ?_ t ht
    intro u hu
    have := (heappush_perm h2 (HNode.node2 (left.freq + right.freq) left
      right)).mem_iff.mp hu
    rcases List.mem_append.mp this with hmem | hmem
    · exact hh2 u hmem
    · rw [List.mem_singleton.mp hmem]
      exact hmerge _ _ _ hleft hright
  | case1 heap h hp1 =>
    intro hall t ht
    exact absurd hp1 (heappop_ne_none heap
      (by intro hh; rw [hh] at h; simp at h))
  | case2 heap h left h1 hp1 hp2 =>
    intro hall t ht
    have e1 := heappop_length heap left h1 hp1
    exact absurd hp2 (heappop_ne_none h1
      (by intro hh; rw [hh] at e1; simp at e1; omega))
  | case4 heap h =>
    intro hall t ht
    rw [buildLoop, dif_neg h] at ht
    exact hall t ht

/-! ### `Counter` keys: first-occurrence deduplication -/

theorem uniqueFirst_aux (data : List Nat) :
    ∀ acc : List Nat, acc.Nodup →
      (data.foldl (fun a b => if b ∈ a then a else a ++ [b]) acc).Nodup ∧
      (∀ x, x ∈ data.foldl (fun a b => if b ∈ a then a else a ++ [b]) acc ↔
        x ∈ acc ∨ x ∈ data) := by
  induction data with
  | nil =>
    intro acc hacc
    exact ⟨hacc, fun x => by simp⟩
  | cons b data ih =>
    intro acc hacc
    rw [List.foldl_cons]
    by_cases hb : b ∈ acc
    · rw [if_pos hb]
      obtain ⟨hnd, hmem⟩ := ih acc hacc
      refine ⟨hnd, fun x => ?_⟩
      rw [hmem x]
      constructor
      · rintro (hx | hx)
        · exact Or.inl hx
        · exact Or.inr (List.mem_cons_of_mem b hx)
      · rintro (hx | hx)
        · exact Or.inl hx
        · rcases List.mem_cons.mp hx with rfl | hx
          · exact Or.inl hb
          · exact Or.inr hx
    · rw [if_neg hb]
      obtain ⟨hnd, hmem⟩ := ih (acc ++ [b])
        (by rw [List.nodup_append]; exact ⟨hacc, List.nodup_singleton b,
          fun x hx hx2 => hb ((List.mem_singleton.mp hx2) ▸ hx)⟩)
      refine ⟨hnd, fun x => ?_⟩
      rw [hmem x, List.mem_append, List.mem_singleton]
      constructor
      · rintro ((hx | rfl) | hx)
        · exact Or.inl hx
        · exact Or.inr (List.mem_cons_self _ _)
        · exact Or.inr (List.mem_cons_of_mem b hx)
      · rintro (hx | hx)
        · exact Or.inl (Or.inl hx)
        · rcases List.mem_cons.mp hx with rfl | hx
          · exact Or.inl (Or.inr rfl)
          · exact Or.inr hx

theorem uniqueFirst_nodup (data : List Nat) : (uniqueFirst data).Nodup :=
  (uniqueFirst_aux data [] List.nodup_nil).1

theorem uniqueFirst_mem (data : List Nat) (x : Nat) :
    x ∈ uniqueFirst data ↔ x ∈ data := by
  rw [uniqueFirst]
  rw [(uniqueFirst_aux data [] List.nodup_nil).2 x]
  simp

theorem uniqueFirst_length_le (data : List Nat)
    (hb : ∀ b ∈ data, b < 256) : (uniqueFirst data).length ≤ 256 := by
  have hnd := uniqueFirst_nodup data
  have hsub : ∀ b ∈ uniqueFirst data, b ∈ List.range 256 := by
    intro b hbm
    rw [List.mem_range]
    exact hb b ((uniqueFirst_mem data b).mp hbm)
  calc (uniqueFirst data).length = (uniqueFirst data).toFinset.card :=
        (List.toFinset_card_of_nodup hnd).symm
    _ ≤ (List.range 256).toFinset.card :=
        Finset.card_le_card (fun x hx => List.mem_toFinset.mpr
          (hsub x (List.mem_toFinset.mp hx)))
    _ ≤ (List.range 256).length := (List.range 256).toFinset_card_le
    _ = 256 := List.length_range 256

theorem goodDepth_merge (f : Nat) (l r : HNode) (hl : goodDepth l)
    (hr : goodDepth r) : goodDepth (HNode.node2 f l r) := by
  rw [goodDepth, HNode.depth, HNode.leafChars, List.length_append]
  rw [goodDepth] at hl hr
  rcases Nat.le_total l.depth r.depth with hm | hm
  · rw [Nat.max_eq_right hm]; omega
  · rw [Nat.max_eq_left hm]; omega

theorem heappop_singleton (e : HNode) : heappop [e] = some (e, []) := rfl

theorem buildRoot_spec (heap : List HNode) (hne : 1 ≤ heap.length)
    (hleaves : ∀ t ∈ heap, ∃ ch fr, t = HNode.leaf ch fr) :
    ∃ root, buildRoot heap = some root ∧
      root.leafChars.Perm (heapChars heap) ∧
      max 1 root.depth ≤ root.leafChars.length ∧
      root.depth ≤ max 1 (root.leafChars.length - 1) := by
  rw [buildRoot, if_neg (by omega)]
  by_cases h1 : heap.length = 1
  · rw [if_pos h1]
    obtain ⟨e, rfl⟩ := List.length_eq_one.mp h1
    rw [heappop_singleton]
    obtain ⟨ch, fr, rfl⟩ := hleaves e (List.mem_cons_self e [])
    refine ⟨_, rfl, ?_, ?_, ?_⟩
    · show (HNode.leaf ch fr).leafChars.Perm (heapChars [HNode.leaf ch fr])
      rw [show heapChars [HNode.leaf ch fr] = (HNode.leaf ch fr).leafChars
        from by simp [heapChars]]
    · show max 1 (HNode.node1 (HNode.leaf ch fr).freq
        (HNode.leaf ch fr)).depth ≤ _
      rw [HNode.depth, HNode.depth]
      simp [HNode.leafChars]
    · show (HNode.node1 (HNode.leaf ch fr).freq
        (HNode.leaf ch fr)).depth ≤ _
      rw [HNode.depth, HNode.depth]
      simp [HNode.leafChars]
  · rw [if_neg h1]
    have hlen1 : (buildLoop heap).length = 1 := buildLoop_length_one heap hne
    obtain ⟨root, hroot⟩ := List.length_eq_one.mp hlen1
    rw [hroot]
    have hchars := buildLoop_chars heap
    rw [hroot] at hchars
    have hroot_chars : heapChars [root] = root.leafChars := by
      simp [heapChars]
    rw [hroot_chars] at hchars
    have hgd : goodDepth root := by
      have := buildLoop_inv goodDepth goodDepth_merge heap
        (fun t ht => by
          obtain ⟨ch, fr, rfl⟩ := hleaves t ht
          rw [goodDepth, HNode.depth, HNode.leafChars, List.length_cons]
          simp)
      exact this root (hroot ▸ List.mem_cons_self root [])
    refine ⟨root, rfl, hchars, ?_, ?_⟩
    · rw [goodDepth] at hgd
      exact Nat.max_le.mpr ⟨by omega, by omega⟩
    · rw [goodDepth] at hgd
      have := Nat.le_max_right 1 (root.leafChars.length - 1)
      omega

theorem heapChars_leaves (freqs : List (Nat × Nat)) :
    heapChars (freqs.map (fun p => HNode.leaf p.1 p.2)) = freqs.map Prod.fst := by
  induction freqs with
  | nil => rfl
  | cons p ps ih =>
    rw [List.map_cons, List.map_cons,
      show heapChars (HNode.leaf p.1 p.2 :: ps.map (fun p => HNode.leaf p.1
        p.2)) = p.1 :: heapChars (ps.map (fun p => HNode.leaf p.1 p.2)) from
        rfl, ih]

theorem frequencies_fst (data : List Nat) :
    (frequencies data).map Prod.fst = uniqueFirst data := by
  rw [frequencies, List.map_map]
  exact List.map_id _

theorem uniqueFirst_ne_nil (data : List Nat) (hne : data ≠ []) :
    uniqueFirst data ≠ [] := by
  rcases data with - | ⟨b, rest⟩
  · exact absurd rfl hne
  · intro hh
    have := (uniqueFirst_mem (b :: rest) b).mpr (List.mem_cons_self b rest)
    rw [hh] at this
    exact List.not_mem_nil b this

theorem build_spec (data : List Nat) (hne : data ≠ []) :
    ∃ root, build data = some root ∧
      root.leafChars.Perm (uniqueFirst data) ∧
      max 1 root.depth ≤ root.leafChars.length ∧
      root.depth ≤ max 1 (root.leafChars.length - 1) := by
  rw [build]
  have hufne := uniqueFirst_ne_nil data hne
  have hlen0 : ((frequencies data).map
      (fun p => HNode.leaf p.1 p.2)).length = (uniqueFirst data).length := by
    rw [List.length_map, frequencies, List.length_map]
  have hlen : (heapify ((frequencies data).map
      (fun p => HNode.leaf p.1 p.2))).length = (uniqueFirst data).length := by
    rw [heapify_length, hlen0]
  have hperm := heapify_perm ((frequencies data).map
    (fun p => HNode.leaf p.1 p.2))
  obtain ⟨root, hr, hchars, hdep, hdep2⟩ := buildRoot_spec _
    (by rw [hlen]; exact List.length_pos.mpr hufne)
    (fun t ht => by
      have := hperm.mem_iff.mp ht
      obtain ⟨p, hp, rfl⟩ := List.mem_map.mp this
      exact ⟨p.1, p.2, rfl⟩)
  refine ⟨root, hr, ?_, hdep, hdep2⟩
  refine hchars.trans ?_
  refine (heapChars_perm _ _ hperm).trans ?_
  rw [heapChars_leaves, frequencies_fst]

/-! ### Generated codes: prefix-freedom, lengths, coverage -/

/-- `a` is an initial segment of `b`. -/
def isInitSeg (a b : List Nat) : Prop := b.take a.length = a

/-- Neither code is an initial segment of the other. -/
def noInit (p q : Nat × List Nat) : Prop :=
  ¬ isInitSeg p.2 q.2 ∧ ¬ isInitSeg q.2 p.2

theorem genCodes_fst (t : HNode) :
    ∀ c, (genCodes t c).map Prod.fst = t.leafChars := by
  induction t with
  | leaf ch fr => intro c; rfl
  | node2 f l r ihl ihr =>
    intro c
    rw [genCodes, List.map_append, ihl, ihr]
    rfl
  | node1 f l ihl =>
    intro c
    rw [genCodes, ihl]
    rfl

theorem genCodes_extends (t : HNode) :
    ∀ c, c ≠ [] → ∀ p ∈ genCodes t c,
      p.2.take c.length = c ∧ c.length ≤ p.2.length ∧
        p.2.length ≤ c.length + t.depth := by
  induction t with
  | leaf ch fr =>
    intro c hc p hp
    rw [genCodes] at hp
    rw [if_neg (by simp [hc])] at hp
    rw [List.mem_singleton.mp hp]
    exact ⟨List.take_length c, le_refl _,
      by rw [HNode.depth]; exact Nat.le_add_right _ _⟩
  | node2 f l r ihl ihr =>
    intro c hc p hp
    rw [genCodes] at hp
    have hstep : ∀ (b : Nat) (t' : HNode),
        (∀ c', c' ≠ [] → ∀ q ∈ genCodes t' c', q.2.take c'.length = c' ∧
          c'.length ≤ q.2.length ∧ q.2.length ≤ c'.length + t'.depth) →
        p ∈ genCodes t' (c ++ [b]) →
        p.2.take c.length = c ∧ c.length ≤ p.2.length ∧
          p.2.length ≤ c.length + 1 + t'.depth := by
      intro b t' ih hp
      obtain ⟨h1, h2, h3⟩ := ih (c ++ [b]) (by simp) p hp
      rw [List.length_append, List.length_cons, List.length_nil] at h2 h3
      refine ⟨?_, by omega, by omega⟩
      have : p.2.take c.length = (p.2.take (c.length + 1)).take c.length := by
        rw [List.take_take, Nat.min_def, if_pos (by omega)]
      rw [this, List.length_append, List.length_cons, List.length_nil] at *
      rw [h1, List.take_append_of_le_length (le_refl _), List.take_length]
    rcases List.mem_append.mp hp with hmem | hmem
    · obtain ⟨h1, h2, h3⟩ := hstep 48 l ihl hmem
      refine ⟨h1, h2, ?_⟩
      rw [HNode.depth]
      have := Nat.le_max_left l.depth r.depth
      omega
    · obtain ⟨h1, h2, h3⟩ := hstep 49 r ihr hmem
      refine ⟨h1, h2, ?_⟩
      rw [HNode.depth]
      have := Nat.le_max_right l.depth r.depth
      omega
  | node1 f l ihl =>
    intro c hc p hp
    rw [genCodes] at hp
    obtain ⟨h1, h2, h3⟩ := ihl (c ++ [48]) (by simp) p hp
    rw [List.length_append, List.length_cons, List.length_nil] at h2 h3
    refine ⟨?_, by omega, by rw [HNode.depth]; omega⟩
    have heq : p.2.take c.length = (p.2.take (c.length + 1)).take c.length := by
      rw [List.take_take, Nat.min_def, if_pos (by omega)]
    rw [List.length_append, List.length_cons, List.length_nil] at h1
    rw [heq, h1, List.take_append_of_le_length (le_refl _), List.take_length]

theorem cross_noInit (c : List Nat) (p q : Nat × List Nat)
    (hp : p.2.take (c.length + 1) = c ++ [48])
    (hq : q.2.take (c.length + 1) = c ++ [49])
    (hpl : c.length + 1 ≤ p.2.length) (hql : c.length + 1 ≤ q.2.length) :
    noInit p q := by
  constructor
  · intro hseg
    rw [isInitSeg] at hseg
    have : q.2.take (c.length + 1) = p.2.take (c.length + 1) := by
      rw [← hseg, List.take_take, Nat.min_def, if_pos (by omega)]
    rw [hp, hq] at this
    have := List.append_inj_right this (rfl)
    simp at this
  · intro hseg
    rw [isInitSeg] at hseg
    have : p.2.take (c.length + 1) = q.2.take (c.length + 1) := by
      rw [← hseg, List.take_take, Nat.min_def, if_pos (by omega)]
    rw [hp, hq] at this
    have := List.append_inj_right this (rfl)
    simp at this

theorem genCodes_pairwise (t : HNode) :
    ∀ c, c ≠ [] → (genCodes t c).Pairwise noInit := by
  induction t with
  | leaf ch fr =>
    intro c hc
    rw [genCodes]
    exact List.pairwise_singleton _ _
  | node2 f l r ihl ihr =>
    intro c hc
    rw [genCodes]
    rw [List.pairwise_append]
    refine ⟨ihl _ (by simp), ihr _ (by simp), ?_⟩
    intro p hp q hq
    obtain ⟨hp1, hp2, -⟩ := genCodes_extends l (c ++ [48]) (by simp) p hp
    obtain ⟨hq1, hq2, -⟩ := genCodes_extends r (c ++ [49]) (by simp) q hq
    simp only [List.length_append, List.length_cons, List.length_nil,
      Nat.zero_add] at hp1 hp2 hq1 hq2
    exact cross_noInit c p q hp1 hq1 hp2 hq2
  | node1 f l ihl =>
    intro c hc
    rw [genCodes]
    exact ihl _ (by simp)

theorem genCodes_root_pairwise (t : HNode) :
    (genCodes t []).Pairwise noInit := by
  cases t with
  | leaf ch fr =>
    rw [genCodes]
    exact List.pairwise_singleton _ _
  | node2 f l r =>
    rw [genCodes]
    rw [List.pairwise_append]
    refine ⟨genCodes_pairwise l _ (by simp), genCodes_pairwise r _ (by simp),
      ?_⟩
    intro p hp q hq
    obtain ⟨hp1, hp2, -⟩ := genCodes_extends l ([] ++ [48]) (by simp) p hp
    obtain ⟨hq1, hq2, -⟩ := genCodes_extends r ([] ++ [49]) (by simp) q hq
    simp only [List.nil_append, List.length_cons, List.length_nil,
      Nat.zero_add] at hp1 hp2 hq1 hq2
    exact cross_noInit [] p q (by simpa using hp1) (by simpa using hq1)
      (by simpa using hp2) (by simpa using hq2)
  | node1 f l =>
    rw [genCodes]
    exact genCodes_pairwise l _ (by simp)

theorem genCodes_root_length (t : HNode) :
    ∀ p ∈ genCodes t [], 1 ≤ p.2.length ∧ p.2.length ≤ max 1 t.depth := by
  intro p hp
  cases t with
  | leaf ch fr =>
    rw [genCodes] at hp
    rw [List.mem_singleton.mp hp]
    simp
  | node2 f l r =>
    rw [genCodes] at hp
    rcases List.mem_append.mp hp with hmem | hmem
    · obtain ⟨-, h2, h3⟩ := genCodes_extends l ([] ++ [48]) (by simp) p hmem
      simp only [List.nil_append, List.length_cons, List.length_nil] at h2 h3
      rw [HNode.depth]
      have := Nat.le_max_left l.depth r.depth
      refine ⟨by omega, ?_⟩
      have hm := Nat.le_max_right 1 (1 + max l.depth r.depth)
      omega
    · obtain ⟨-, h2, h3⟩ := genCodes_extends r ([] ++ [49]) (by simp) p hmem
      simp only [List.nil_append, List.length_cons, List.length_nil] at h2 h3
      rw [HNode.depth]
      have := Nat.le_max_right l.depth r.depth
      refine ⟨by omega, ?_⟩
      have hm := Nat.le_max_right 1 (1 + max l.depth r.depth)
      omega
  | node1 f l =>
    rw [genCodes] at hp
    obtain ⟨-, h2, h3⟩ := genCodes_extends l ([] ++ [48]) (by simp) p hp
    simp only [List.nil_append, List.length_cons, List.length_nil] at h2 h3
    rw [HNode.depth]
    have hm := Nat.le_max_right 1 (1 + l.depth)
    exact ⟨by omega, by omega⟩

theorem genCodes_digits (t : HNode) :
    ∀ c, (∀ b ∈ c, b = 48 ∨ b = 49) → ∀ p ∈ genCodes t c,
      ∀ b ∈ p.2, b = 48 ∨ b = 49 := by
  induction t with
  | leaf ch fr =>
    intro c hc p hp b hb
    rw [genCodes] at hp
    rw [List.mem_singleton.mp hp] at hb
    by_cases hce : c.isEmpty
    · rw [if_pos hce] at hb
      rcases List.mem_singleton.mp hb with rfl
      exact Or.inl rfl
    · rw [if_neg hce] at hb
      exact hc b hb
  | node2 f l r ihl ihr =>
    intro c hc p hp b hb
    rw [genCodes] at hp
    have hc48 : ∀ b ∈ c ++ [48], b = 48 ∨ b = 49 := by
      intro x hx
      rcases List.mem_append.mp hx with hx | hx
      · exact hc x hx
      · exact Or.inl (List.mem_singleton.mp hx)
    have hc49 : ∀ b ∈ c ++ [49], b = 48 ∨ b = 49 := by
      intro x hx
      rcases List.mem_append.mp hx with hx | hx
      · exact hc x hx
      · exact Or.inr (List.mem_singleton.mp hx)
    rcases List.mem_append.mp hp with hmem | hmem
    · exact ihl _ hc48 p hmem b hb
    · exact ihr _ hc49 p hmem b hb
  | node1 f l ihl =>
    intro c hc p hp b hb
    rw [genCodes] at hp
    have hc48 : ∀ b ∈ c ++ [48], b = 48 ∨ b = 49 := by
      intro x hx
      rcases List.mem_append.mp hx with hx | hx
      · exact hc x hx
      · exact Or.inl (List.mem_singleton.mp hx)
    exact ihl _ hc48 p hp b hb

/-! ### Table serialization round-trip -/

theorem serializeEntries_roundtrip (codes : List (Nat × List Nat))
    (hgood : ∀ p ∈ codes, p.1 < 256 ∧ p.2.length < 256 ∧ ∀ b ∈ p.2, b < 128) :
    ∃ bs, serializeEntries codes = some bs ∧
      deserializeEntries codes.length bs = some codes ∧
      bs.length ≤ 257 * codes.length := by
  induction codes with
  | nil => exact ⟨[], rfl, rfl, by simp⟩
  | cons p rest ih =>
    obtain ⟨ch, code⟩ := p
    obtain ⟨h1, h2, h3⟩ := hgood (ch, code) (List.mem_cons_self _ _)
    have h2' : code.length < 256 := h2
    obtain ⟨bs, hser, hdes, hlen⟩ :=
      ih (fun q hq => hgood q (List.mem_cons_of_mem _ hq))
    refine ⟨ch :: code.length :: (code ++ bs), ?_, ?_, ?_⟩
    · rw [serializeEntries, if_pos ⟨h1, h2⟩, hser]
      rfl
    · rw [List.length_cons, deserializeEntries]
      rw [if_pos (by rw [List.length_append]; omega)]
      rw [List.take_left, if_pos (List.all_eq_true.mpr
        (fun b hb => decide_eq_true (h3 b hb)))]
      rw [List.drop_left, hdes]
      rfl
    · simp only [List.length_cons, List.length_append]
      omega

theorem serializeTree_roundtrip (codes : List (Nat × List Nat))
    (hne : codes ≠ []) (hlen : codes.length < 2 ^ 16)
    (hgood : ∀ p ∈ codes, p.1 < 256 ∧ p.2.length < 256 ∧ ∀ b ∈ p.2, b < 128) :
    ∃ td, serializeTree codes = some td ∧
      deserializeTree td = some codes ∧
      td.length ≤ 2 + 257 * codes.length := by
  obtain ⟨bs, hser, hdes, hblen⟩ := serializeEntries_roundtrip codes hgood
  have hne0 : codes.length ≠ 0 := fun h => hne (List.length_eq_zero.mp h)
  refine ⟨Format.le16 codes.length ++ bs, ?_, ?_, ?_⟩
  · rw [serializeTree, if_neg hne0, if_pos hlen, hser]
    rfl
  · show deserializeTree ((codes.length % 256) ::
      (codes.length / 256 % 256) :: bs) = some codes
    rw [deserializeTree]
    rw [show codes.length % 256 + 256 * (codes.length / 256 % 256) =
      codes.length from by omega]
    rw [if_neg hne0, hdes]
  · simp only [List.length_append, Format.le16, List.length_cons,
      List.length_nil]
    omega

/-! ### Bit stream round-trip -/

theorem unpackByte_packByte : ∀ b0 b1 b2 b3 b4 b5 b6 b7 : Bool,
    unpackByte (packByte b0 b1 b2 b3 b4 b5 b6 b7) =
      [b0, b1, b2, b3, b4, b5, b6, b7] := by decide

theorem packBytes_unpack (n : Nat) : ∀ bits : List Bool,
    bits.length = 8 * n → (packBytes bits).flatMap unpackByte = bits := by
  induction n with
  | zero =>
    intro bits h
    rw [List.length_eq_zero.mp h]
    rfl
  | succ n ih =>
    intro bits h
    rcases bits with - | ⟨b0, - | ⟨b1, - | ⟨b2, - | ⟨b3, - | ⟨b4, - |
      ⟨b5, - | ⟨b6, - | ⟨b7, rest⟩⟩⟩⟩⟩⟩⟩⟩ <;>
      simp only [List.length_nil, List.length_cons] at h
    all_goals try omega
    rw [packBytes, List.flatMap_cons, unpackByte_packByte, ih rest (by omega)]
    rfl

theorem bytesToBits_bitsToBytes (bits : List Bool) :
    bytesToBits (bitsToBytes bits) = bits := by
  rw [bitsToBytes, bytesToBits]
  have hlen : (bits ++ List.replicate ((8 - bits.length % 8) % 8)
      false).length =
      8 * ((bits.length + (8 - bits.length % 8) % 8) / 8) := by
    rw [List.length_append, List.length_replicate]
    omega
  have hflat := packBytes_unpack _ _ hlen
  by_cases hp0 : (8 - bits.length % 8) % 8 > 0
  · rw [if_pos hp0, hflat]
    rw [show (bits ++ List.replicate ((8 - bits.length % 8) % 8)
      false).length - (8 - bits.length % 8) % 8 = bits.length from by
        rw [List.length_append, List.length_replicate]; omega]
    exact List.take_left bits _
  · rw [if_neg hp0]
    have h0 : (8 - bits.length % 8) % 8 = 0 := by omega
    rw [h0] at hflat
    rw [h0]
    simpa using hflat

/-! ### Decoder table lookups -/

theorem noInit_symm : ∀ p q, noInit p q → noInit q p :=
  fun p q h => ⟨h.2, h.1⟩

theorem charOfCode_mem (table : List (Nat × List Nat))
    (hpf : table.Pairwise noInit) (b : Nat) (code : List Nat)
    (hmem : (b, code) ∈ table) : charOfCode table code = some b := by
  induction table with
  | nil => cases hmem
  | cons q rest ih =>
    rw [charOfCode]
    by_cases hq : q.2 = code
    · rw [List.find?_cons_of_pos _ (by rw [hq]; exact beq_self_eq_true code)]
      rcases List.mem_cons.mp hmem with heq | hmem2
      · rw [← heq]
      · exfalso
        have hni := (List.pairwise_cons.mp hpf).1 _ hmem2
        exact hni.1 (by rw [isInitSeg, hq, List.take_length])
    · rw [List.find?_cons_of_neg _ (by
        intro hc
        exact hq (by simpa using hc))]
      have hmem2 : (b, code) ∈ rest := by
        rcases List.mem_cons.mp hmem with heq | hmem2
        · exact absurd (by rw [← heq]) hq
        · exact hmem2
      have := ih (List.pairwise_cons.mp hpf).2 hmem2
      rw [charOfCode] at this
      exact this

theorem charOfCode_initSeg (table : List (Nat × List Nat))
    (hpf : table.Pairwise noInit) (b : Nat) (code : List Nat)
    (hmem : (b, code) ∈ table) (cur : List Nat)
    (hlt : cur.length < code.length) (hcur : code.take cur.length = cur) :
    charOfCode table cur = none := by
  rw [charOfCode]
  rw [List.find?_eq_none.mpr]
  intro q hq hpred
  have hq2 : q.2 = cur := by simpa using hpred
  by_cases hqv : q = (b, code)
  · rw [hqv] at hq2
    have : code.length = cur.length := by rw [← hq2]
    omega
  · have hni := List.Pairwise.forall noInit_symm hpf hq hmem hqv
    exact hni.1 (by rw [isInitSeg, hq2, hcur])

theorem codeOf_mem (table : List (Nat × List Nat))
    (hfst : (table.map Prod.fst).Nodup) (b : Nat) (code : List Nat)
    (hmem : (b, code) ∈ table) : codeOf table b = code := by
  induction table with
  | nil => cases hmem
  | cons q rest ih =>
    rw [codeOf]
    rw [List.map_cons, List.nodup_cons] at hfst
    by_cases hq : q.1 = b
    · rw [List.find?_cons_of_pos _ (by rw [hq]; exact beq_self_eq_true b)]
      rcases List.mem_cons.mp hmem with heq | hmem2
      · rw [← heq]
      · exfalso
        exact hfst.1 (hq ▸ List.mem_map.mpr ⟨(b, code), hmem2, rfl⟩)
    · rw [List.find?_cons_of_neg _ (by
        intro hc
        exact hq (by simpa using hc))]
      have hmem2 : (b, code) ∈ rest := by
        rcases List.mem_cons.mp hmem with heq | hmem2
        · exact absurd (by rw [← heq]) hq
        · exact hmem2
      have := ih hfst.2 hmem2
      rw [codeOf] at this
      exact this

/-! ### The decode loop inverts the encode loop -/

theorem decodeBitsLoop_symbol (table : List (Nat × List Nat))
    (hpf : table.Pairwise noInit) (b : Nat) (code : List Nat)
    (hmem : (b, code) ∈ table) (hb : b < 256)
    (hdig : ∀ ch ∈ code, ch = 48 ∨ ch = 49) :
    ∀ rest cur, cur ++ rest = code → rest ≠ [] →
      ∀ bits out,
        decodeBitsLoop table
          ((rest.map (fun ch => ch == 49)) ++ bits) cur out =
        decodeBitsLoop table bits [] (out ++ [b]) := by
  intro rest
  induction rest with
  | nil =>
    intro cur h hne
    exact absurd rfl hne
  | cons ch rest' ih =>
    intro cur hsplit hne bits out
    rw [List.map_cons, List.cons_append, decodeBitsLoop]
    have hchm : ch ∈ code := by
      rw [← hsplit]
      exact List.mem_append_right _ (List.mem_cons_self _ _)
    have hch : (if (ch == 49) = true then (49 : Nat) else 48) = ch := by
      rcases hdig ch hchm with h | h
      · subst h; rfl
      · subst h; rfl
    rw [hch]
    by_cases hr : rest' = []
    · subst hr
      have hcode : cur ++ [ch] = code := hsplit
      rw [hcode, charOfCode_mem table hpf b code hmem]
      simp only []
      rw [if_pos hb]
      rw [show (([] : List Nat).map (fun ch => ch == 49)) ++ bits = bits
        from by simp]
    · have hassoc : (cur ++ [ch]) ++ rest' = code := by
        rw [List.append_assoc]
        exact hsplit
      have hlt : (cur ++ [ch]).length < code.length := by
        rw [← hassoc]
        simp only [List.length_append, List.length_cons, List.length_nil]
        have : rest'.length ≠ 0 := fun h => hr (List.length_eq_zero.mp h)
        omega
      have htake : code.take (cur ++ [ch]).length = cur ++ [ch] := by
        rw [← hassoc]
        exact List.take_left _ _
      rw [charOfCode_initSeg table hpf b code hmem _ hlt htake]
      exact ih (cur ++ [ch]) hassoc hr bits out

theorem decodeBitsLoop_encodeBits (table : List (Nat × List Nat))
    (hpf : table.Pairwise noInit) (hfst : (table.map Prod.fst).Nodup)
    (hgood : ∀ p ∈ table, p.1 < 256 ∧ p.2 ≠ [] ∧
      ∀ ch ∈ p.2, ch = 48 ∨ ch = 49) :
    ∀ data, (∀ b ∈ data, b ∈ table.map Prod.fst) →
    ∀ out, decodeBitsLoop table (encodeBits table data) [] out =
      some (out ++ data) := by
  intro data
  induction data with
  | nil =>
    intro hcov out
    rw [encodeBits]
    simp [decodeBitsLoop]
  | cons b ds ih =>
    intro hcov out
    obtain ⟨p, hpmem, hp1⟩ := List.mem_map.mp
      (hcov b (List.mem_cons_self _ _))
    have hbmem : (b, p.2) ∈ table := by
      rw [← hp1, Prod.mk.eta]
      exact hpmem
    obtain ⟨hlt, hne, hdig⟩ := hgood p hpmem
    rw [hp1] at hlt
    rw [encodeBits, List.flatMap_cons]
    rw [codeOf_mem table hfst b p.2 hbmem]
    rw [show ds.flatMap (fun b =>
      (codeOf table b).map (fun ch => ch == 49)) = encodeBits table ds
      from rfl]
    rw [decodeBitsLoop_symbol table hpf b p.2 hbmem hlt hdig p.2 []
      (List.nil_append _) hne (encodeBits table ds) out]
    rw [ih (fun x hx => hcov x (List.mem_cons_of_mem _ hx)) (out ++ [b])]
    rw [List.append_assoc]
    rfl

/-! ### Size bounds -/

theorem flatMap_unpack_length : ∀ l : List Nat,
    (l.flatMap unpackByte).length = 8 * l.length := by
  intro l
  induction l with
  | nil => rfl
  | cons b rest ih =>
    rw [List.flatMap_cons, List.length_append, ih,
      show (unpackByte b).length = 8 from rfl, List.length_cons]
    omega

theorem bitsToBytes_length (bits : List Bool) :
    (bitsToBytes bits).length ≤ bits.length + 8 := by
  have hlen : (bits ++ List.replicate ((8 - bits.length % 8) % 8)
      false).length =
      8 * ((bits.length + (8 - bits.length % 8) % 8) / 8) := by
    rw [List.length_append, List.length_replicate]
    omega
  have hflat := packBytes_unpack _ _ hlen
  have hfl := flatMap_unpack_length
    (packBytes (bits ++ List.replicate ((8 - bits.length % 8) % 8) false))
  rw [hflat, List.length_append, List.length_replicate] at hfl
  rw [bitsToBytes, List.length_cons]
  omega

theorem codeOf_length (table : List (Nat × List Nat))
    (hlen : ∀ p ∈ table, p.2.length ≤ 255) (b : Nat) :
    (codeOf table b).length ≤ 255 := by
  rw [codeOf]
  cases hf : table.find? (fun p => p.1 == b) with
  | some p =>
    exact hlen p (List.mem_of_find?_eq_some hf)
  | none => simp

theorem encodeBits_length (table : List (Nat × List Nat))
    (hlen : ∀ p ∈ table, p.2.length ≤ 255) :
    ∀ data : List Nat, (encodeBits table data).length ≤ 255 * data.length := by
  intro data
  induction data with
  | nil => simp [encodeBits]
  | cons b ds ih =>
    rw [encodeBits, List.flatMap_cons, List.length_append, List.length_map]
    rw [show ds.flatMap (fun b =>
      (codeOf table b).map (fun ch => ch == 49)) = encodeBits table ds
      from rfl]
    have hc := codeOf_length table hlen b
    rw [List.length_cons]
    have : 255 * (ds.length + 1) = 255 * ds.length + 255 := by ring
    omega

/-! ### The code table of a built tree -/

theorem huffman_table_spec (data : List Nat) (hne : data ≠ [])
    (hb : ∀ b ∈ data, b < 256) :
    ∃ root, build data = some root ∧
      (genCodes root []).Pairwise noInit ∧
      ((genCodes root []).map Prod.fst).Nodup ∧
      (∀ b ∈ data, b ∈ (genCodes root []).map Prod.fst) ∧
      (∀ p ∈ genCodes root [], p.1 < 256 ∧ 1 ≤ p.2.length ∧
        p.2.length ≤ 255 ∧ ∀ ch ∈ p.2, ch = 48 ∨ ch = 49) ∧
      genCodes root [] ≠ [] ∧ (genCodes root []).length ≤ 256 := by
  obtain ⟨root, hbuild, hperm, hdep, hdep2⟩ := build_spec data hne
  have hfst := genCodes_fst root []
  have hL : root.leafChars.length = (uniqueFirst data).length :=
    hperm.length_eq
  have hL256 : root.leafChars.length ≤ 256 := by
    rw [hL]
    exact uniqueFirst_length_le data hb
  have hLpos : 0 < root.leafChars.length := by
    rw [hL]
    exact List.length_pos.mpr (uniqueFirst_ne_nil data hne)
  have hd255 : root.depth ≤ 255 :=
    le_trans hdep2 (Nat.max_le.mpr ⟨by omega, by omega⟩)
  have hTlen : (genCodes root []).length = root.leafChars.length := by
    rw [← hfst, List.length_map]
  refine ⟨root, hbuild, genCodes_root_pairwise root, ?_, ?_, ?_, ?_, ?_⟩
  · rw [hfst]
    exact hperm.nodup_iff.mpr (uniqueFirst_nodup data)
  · intro b hbm
    rw [hfst]
    exact hperm.mem_iff.mpr ((uniqueFirst_mem data b).mpr hbm)
  · intro p hp
    obtain ⟨h1, h2⟩ := genCodes_root_length root p hp
    refine ⟨?_, h1, ?_, genCodes_digits root [] (by simp) p hp⟩
    · have hp1 : p.1 ∈ root.leafChars := by
        rw [← hfst]
        exact List.mem_map.mpr ⟨p, hp, rfl⟩
      have : p.1 ∈ data :=
        (uniqueFirst_mem data p.1).mp (hperm.mem_iff.mp hp1)
      exact hb p.1 this
    · have : max 1 root.depth ≤ 255 := Nat.max_le.mpr ⟨by omega, hd255⟩
      omega
  · intro hnil
    rw [hnil] at hTlen
    simp at hTlen
    omega
  · omega

/-! ### Encode/decode round-trip at the byte-pair level -/

theorem huffman_encode_decode (data : List Nat) (hne : data ≠ [])
    (hb : ∀ b ∈ data, b < 256) :
    ∃ td ed, HuffmanEncoder_encode data = some (td, ed) ∧
      HuffmanEncoder_decode td ed = some data ∧
      td.length ≤ 65794 ∧ ed.length ≤ 255 * data.length + 8 := by
  obtain ⟨root, hbuild, hpf, hnd, hcov, hgood, htne, htlen⟩ :=
    huffman_table_spec data hne hb
  obtain ⟨td, hser, hdes, htdlen⟩ := serializeTree_roundtrip
    (genCodes root []) htne (by omega) (fun p hp => by
      obtain ⟨g1, g2, g3, g4⟩ := hgood p hp
      refine ⟨g1, by omega, fun b hbm => ?_⟩
      rcases g4 b hbm with rfl | rfl <;> omega)
  refine ⟨td, bitsToBytes (encodeBits (genCodes root []) data), ?_, ?_, ?_, ?_⟩
  · rw [HuffmanEncoder_encode,
      if_neg (by simp [List.isEmpty_iff, hne]), hbuild]
    simp only []
    rw [hser]
    rfl
  · rw [HuffmanEncoder_decode, hdes]
    simp only []
    rw [if_neg (by simp [List.isEmpty_iff, htne])]
    rw [bytesToBits_bitsToBytes]
    have := decodeBitsLoop_encodeBits (genCodes root []) hpf hnd
      (fun p hp => by
        obtain ⟨g1, g2, g3, g4⟩ := hgood p hp
        exact ⟨g1, fun h => by rw [h] at g2; simp at g2, g4⟩)
      data hcov []
    rw [this]
    rfl
  · omega
  · have h1 := bitsToBytes_length (encodeBits (genCodes root []) data)
    have h2 := encodeBits_length (genCodes root [])
      (fun p hp => (hgood p hp).2.2.1) data
    omega

/-! ### Container framing and the round-trip claims -/

theorem huffman_frame (td ed : List Nat) (htd32 : td.length < 2 ^ 32)
    (hed32 : ed.length < 2 ^ 32) :
    decompress_with_huffman
      (Format.le32 td.length ++ td ++ Format.le32 ed.length ++ ed) =
    HuffmanEncoder_decode td ed := by
  have hl4 : ∀ v : Nat, (Format.le32 v).length = 4 := fun v => rfl
  have hc : Format.le32 td.length ++ td ++ Format.le32 ed.length ++ ed =
      Format.le32 td.length ++ (td ++ (Format.le32 ed.length ++ ed)) := by
    simp only [List.append_assoc]
  have hclen : (Format.le32 td.length ++ td ++ Format.le32 ed.length ++
      ed).length = 4 + td.length + 4 + ed.length := by
    simp only [List.length_append, hl4]
    try omega
  have hdrop1 : (Format.le32 td.length ++ td ++ Format.le32 ed.length ++
      ed).drop (4 + td.length) = Format.le32 ed.length ++ ed := by
    rw [show Format.le32 td.length ++ td ++ Format.le32 ed.length ++ ed =
      (Format.le32 td.length ++ td) ++ (Format.le32 ed.length ++ ed) from by
        simp only [List.append_assoc]]
    rw [show 4 + td.length = (Format.le32 td.length ++ td).length from by
      simp only [List.length_append, hl4]]
    exact List.drop_left _ _
  have hdrop4 : (Format.le32 td.length ++ td ++ Format.le32 ed.length ++
      ed).drop 4 = td ++ (Format.le32 ed.length ++ ed) := by
    rw [hc, show (4 : Nat) = (Format.le32 td.length).length from rfl]
    exact List.drop_left _ _
  have hdrop8 : (Format.le32 td.length ++ td ++ Format.le32 ed.length ++
      ed).drop (4 + td.length + 4) = ed := by
    rw [Format.drop_add _ (4 + td.length) 4, hdrop1]
    rw [show (4 : Nat) = (Format.le32 ed.length).length from rfl]
    exact List.drop_left _ _
  rw [decompress_with_huffman]
  rw [if_neg (by rw [hclen]; omega)]
  rw [Format.readU32at_spec _ 0 td.length htd32
    (td ++ (Format.le32 ed.length ++ ed)) (by rw [List.drop_zero]; exact hc)]
  simp only []
  rw [if_neg (by rw [hclen]; omega)]
  rw [Format.readU32at_spec _ (4 + td.length) ed.length hed32 ed hdrop1]
  simp only []
  rw [if_neg (by rw [hclen]; omega)]
  rw [show ((Format.le32 td.length ++ td ++ Format.le32 ed.length ++
    ed).drop 4).take td.length = td from by
      rw [hdrop4]; exact List.take_left _ _]
  rw [show ((Format.le32 td.length ++ td ++ Format.le32 ed.length ++
    ed).drop (4 + td.length + 4)).take ed.length = ed from by
      rw [hdrop8]; exact List.take_length ed]

/-- C3: for every byte buffer (bytes < 256, length < 2^24 so the `u32`
size fields cannot overflow), the Huffman stage round-trips:
`decompress_with_huffman (compress_with_huffman data) = data`, including
the empty buffer; the padding bits added by `BitStream.to_bytes` are
stripped without affecting the result. -/
theorem huffman_roundtrip (data : List Nat)
    (hb : ∀ b ∈ data, b < 256) (hlen : data.length < 2 ^ 24) :
    ∃ c, compress_with_huffman data = some c ∧
      decompress_with_huffman c = some data := by
  by_cases hne : data = []
  · subst hne
    exact ⟨[2, 0, 0, 0, 0, 0, 0, 0, 0, 0], rfl, rfl⟩
  · obtain ⟨td, ed, henc, hdec, htd, hed⟩ :=
      huffman_encode_decode data hne hb
    have htd32 : td.length < 2 ^ 32 := by omega
    have hed32 : ed.length < 2 ^ 32 := by omega
    refine ⟨Format.le32 td.length ++ td ++ Format.le32 ed.length ++ ed,
      ?_, ?_⟩
    · rw [compress_with_huffman, henc]
      simp only []
      rw [if_pos ⟨htd32, hed32⟩]
    · rw [huffman_frame td ed htd32 hed32]
      exact hdec

theorem huffman_roundtrip_witness :
    (∀ b ∈ [97, 98, 97, 97], b < 256) ∧
    ([97, 98, 97, 97] : List Nat).length < 2 ^ 24 ∧
    ∃ c, compress_with_huffman [97, 98, 97, 97] = some c ∧
      decompress_with_huffman c = some [97, 98, 97, 97] :=
  ⟨by decide, by decide,
    huffman_roundtrip [97, 98, 97, 97] (by decide) (by decide)⟩

/-- C7: for every non-empty input of bytes < 256, the code table
`genCodes root []` of the built Huffman tree is prefix-free (no code is
an initial segment of another) and assigns every byte occurring in the
input a code of length between 1 and 256 bits. -/
theorem huffman_prefix_free (data : List Nat) (hne : data ≠ [])
    (hb : ∀ b ∈ data, b < 256) :
    ∃ root, build data = some root ∧
      (genCodes root []).Pairwise noInit ∧
      ∀ b ∈ data, ∃ code, (b, code) ∈ genCodes root [] ∧
        1 ≤ code.length ∧ code.length ≤ 256 := by
  obtain ⟨root, hbuild, hpf, hnd, hcov, hgood, htne, htlen⟩ :=
    huffman_table_spec data hne hb
  refine ⟨root, hbuild, hpf, fun b hbm => ?_⟩
  obtain ⟨p, hpmem, hp1⟩ := List.mem_map.mp (hcov b hbm)
  obtain ⟨-, h1, h2, -⟩ := hgood p hpmem
  exact ⟨p.2, by rw [← hp1, Prod.mk.eta]; exact hpmem, h1, by omega⟩

theorem huffman_prefix_free_witness :
    ([104, 105, 104] : List Nat) ≠ [] ∧
    (∀ b ∈ [104, 105, 104], b < 256) ∧
    ∃ root, build [104, 105, 104] = some root ∧
      (genCodes root []).Pairwise noInit ∧
      ∀ b ∈ [104, 105, 104], ∃ code, (b, code) ∈ genCodes root [] ∧
        1 ≤ code.length ∧ code.length ≤ 256 :=
  ⟨by decide, by decide,
    huffman_prefix_free [104, 105, 104] (by decide) (by decide)⟩

end Huffman

namespace Lzma

/-! ## `lzma_compressor.py`: the bespoke LZMA backend

The range coder and the compressor state machine are embedded verbatim.
Python's unbounded `int` is `Nat` (the source masks `low` and `range`
with `& 0xFFFFFFFF` exactly where shown; `code` is never masked);
`bytearray.append` of a value above 255 raises, so byte emission is
`Option`; the `while range < TOP_VALUE` renormalization loops are run on
a fuel of 40 (a positive `range` is renormalized in at most 3 shifts, so
`none` from exhausted fuel corresponds to the Python loop not
terminating). -/

abbrev TOP_VALUE : Nat := 1 <<< 24

abbrev BIT_MODEL_TOTAL : Nat := 1 <<< 11

/-- `RangeEncoder` state: `cache` starts at `-1`. -/
structure REnc where
  low : Nat
  range : Nat
  output : List Nat
  cache : Int
  cache_size : Nat
deriving Repr, DecidableEq

def REnc.init : REnc :=
  ⟨0, 0xFFFFFFFF, [], -1, 0⟩

/-- The shared `if self.low < 0xFF000000 ... else self.cache += 1` body of
the shift-out loops of `encode_bit` and `finish`. -/
def shiftBody (e : REnc) : Option REnc :=
  if e.low < 0xFF000000 then
    if 0 ≤ e.cache then
      if e.cache.toNat + (e.low >>> 24) < 256 then
        some ⟨e.low, e.range,
          e.output ++ [e.cache.toNat + (e.low >>> 24)] ++
            List.replicate (e.cache_size - 1) 0xFF, 0, 1⟩
      else none
    else some ⟨e.low, e.range, e.output, 0, 1⟩
  else some ⟨e.low, e.range, e.output, e.cache + 1, e.cache_size⟩

/-- `while self.range < self.TOP_VALUE` of `encode_bit`: shift out, then
mask `low` and `range`. -/
def encNormLoop : Nat → REnc → Option REnc
  | 0, e => if e.range < TOP_VALUE then none else some e
  | fuel + 1, e =>
    if e.range < TOP_VALUE then
      match shiftBody e with
      | none => none
      | some e2 =>
        encNormLoop fuel ⟨(e2.low <<< 8) % 2 ^ 32, (e2.range <<< 8) % 2 ^ 32,
          e2.output, e2.cache, e2.cache_size⟩
    else some e

/-- `RangeEncoder.encode_bit`: returns the updated encoder and the new
model value. -/
def encode_bit (e : REnc) (model : Nat) (bit : Nat) : Option (REnc × Nat) :=
  if bit = 0 then
    (encNormLoop 40 ⟨e.low, (e.range >>> 11) * model, e.output, e.cache,
      e.cache_size⟩).map
      (·, model + ((BIT_MODEL_TOTAL - model) >>> 5))
  else
    (encNormLoop 40 ⟨e.low + (e.range >>> 11) * model,
      e.range - (e.range >>> 11) * model, e.output, e.cache,
      e.cache_size⟩).map
      (·, model - (model >>> 5))

/-- The five-round flush loop of `finish` (no `range` shift). -/
def finishLoop : Nat → REnc → Option REnc
  | 0, e => some e
  | n + 1, e =>
    match shiftBody e with
    | none => none
    | some e2 =>
      finishLoop n ⟨(e2.low <<< 8) % 2 ^ 32, e2.range, e2.output, e2.cache,
        e2.cache_size⟩

/-- `RangeEncoder.finish`. -/
def finish (e : REnc) : Option (List Nat) :=
  match finishLoop 5 e with
  | none => none
  | some e2 =>
    if 0 ≤ e2.cache then
      if e2.cache.toNat + (e2.low >>> 24) < 256 then
        some (e2.output ++ [e2.cache.toNat + (e2.low >>> 24)] ++
          List.replicate (e2.cache_size - 1) 0xFF)
      else none
    else some e2.output

/-- `RangeDecoder` state. -/
structure RDec where
  data : List Nat
  pos : Nat
  range : Nat
  code : Nat
deriving Repr, DecidableEq

/-- `RangeDecoder._read_byte`: a read past the end returns 0 and leaves
`pos` unchanged. -/
def read_byte (d : RDec) : Nat × RDec :=
  if d.pos < d.data.length then
    (d.data.getD d.pos 0, ⟨d.data, d.pos + 1, d.range, d.code⟩)
  else (0, d)

/-- The five-byte `code` initialization of `RangeDecoder.__init__`. -/
def decInitLoop : Nat → RDec → RDec
  | 0, d => d
  | n + 1, d =>
    decInitLoop n ⟨(read_byte d).2.data, (read_byte d).2.pos,
      (read_byte d).2.range, (d.code <<< 8) ||| (read_byte d).1⟩

def RDec.init (data : List Nat) : RDec :=
  decInitLoop 5 ⟨data, 0, 0xFFFFFFFF, 0⟩

/-- `while self.range < self.TOP_VALUE` of `decode_bit`: `code` is shifted
and ORed with the next byte and is never masked. -/
def decNormLoop : Nat → RDec → Option RDec
  | 0, d => if d.range < TOP_VALUE then none else some d
  | fuel + 1, d =>
    if d.range < TOP_VALUE then
      decNormLoop fuel ⟨(read_byte d).2.data, (read_byte d).2.pos,
        ((read_byte d).2.range <<< 8) % 2 ^ 32,
        (d.code <<< 8) ||| (read_byte d).1⟩
    else some d

/-- `RangeDecoder.decode_bit`: returns the updated decoder, the bit and
the new model value. -/
def decode_bit (d : RDec) (model : Nat) : Option (RDec × Nat × Nat) :=
  if d.code < (d.range >>> 11) * model then
    (decNormLoop 40 ⟨d.data, d.pos, (d.range >>> 11) * model, d.code⟩).map
      (·, 0, model + ((BIT_MODEL_TOTAL - model) >>> 5))
  else
    (decNormLoop 40 ⟨d.data, d.pos, d.range - (d.range >>> 11) * model,
      d.code - (d.range >>> 11) * model⟩).map
      (·, 1, model - (model >>> 5))

/-! ### Single-model drivers for the range coder symmetry claim -/

/-- Encode a bit sequence through one adaptive model slot, applying each
returned model update before the next bit. -/
def rcEncodeBits : List Nat → REnc → Nat → Option (REnc × Nat)
  | [], e, m => some (e, m)
  | b :: bs, e, m =>
    match encode_bit e m b with
    | none => none
    | some (e2, m2) => rcEncodeBits bs e2 m2

/-- Encode a bit sequence and `finish`: the produced bytes and the final
model value. -/
def rcEncode (bits : List Nat) (m0 : Nat) : Option (List Nat × Nat) :=
  match rcEncodeBits bits REnc.init m0 with
  | none => none
  | some (e, m) =>
    match finish e with
    | none => none
    | some out => some (out, m)

/-- Decode `n` bits through one adaptive model slot. -/
def rcDecodeBits : Nat → RDec → Nat → Option (List Nat × RDec × Nat)
  | 0, d, m => some ([], d, m)
  | n + 1, d, m =>
    match decode_bit d m with
    | none => none
    | some (d2, bit, m2) =>
      match rcDecodeBits n d2 m2 with
      | none => none
      | some (bits, d3, m3) => some (bit :: bits, d3, m3)

/-! ### `LZMACompressor` model state -/

abbrev WINDOW_SIZE : Nat := 1 <<< 16

abbrev MIN_MATCH : Nat := 3

abbrev MAX_MATCH : Nat := 273

/-- The adaptive model arrays initialized in `LZMACompressor.__init__`
(all entries 1024). -/
structure Models where
  is_match : List (List Nat)
  is_rep : List (List Nat)
  is_rep0 : List (List Nat)
  is_rep1 : List (List Nat)
  is_rep0_long : List (List Nat)
  lit_models : List (List (List Nat))
  len_low : List (List Nat)
  len_mid : List (List Nat)
  len_high : List Nat
  dist_models : List Nat
deriving Repr, DecidableEq

def initModels : Models :=
  ⟨List.replicate 4 (List.replicate 12 1024),
   List.replicate 4 (List.replicate 12 1024),
   List.replicate 4 (List.replicate 12 1024),
   List.replicate 4 (List.replicate 12 1024),
   List.replicate 4 (List.replicate 12 1024),
   List.replicate 8 (List.replicate 12 (List.replicate 0x201 1024)),
   List.replicate 4 (List.replicate 8 1024),
   List.replicate 4 (List.replicate 8 1024),
   List.replicate 256 1024,
   List.replicate 64 1024⟩

def get2 (m : List (List Nat)) (i j : Nat) : Nat := (m.getD i []).getD j 0

def set2 (m : List (List Nat)) (i j v : Nat) : List (List Nat) :=
  m.set i ((m.getD i []).set j v)

def lit3get (M : Models) (a b c : Nat) : Nat :=
  ((M.lit_models.getD a []).getD b []).getD c 0

def lit3set (M : Models) (a b c v : Nat) : Models :=
  ⟨M.is_match, M.is_rep, M.is_rep0, M.is_rep1, M.is_rep0_long,
   M.lit_models.set a ((M.lit_models.getD a []).set b
     (((M.lit_models.getD a []).getD b []).set c v)),
   M.len_low, M.len_mid, M.len_high, M.dist_models⟩

/-! ### Length coder (`_encode_length` / `_decode_length`) -/

/-- One encoder bit loop over model indices `idxOf i bit` into an array
selected by `get`/`set`, sending bit `i` of `value`. -/
def encBitsAt (get : Models → Nat → Nat) (set : Models → Nat → Nat → Models)
    (idxOf : Nat → Nat → Nat) (value : Nat) :
    List Nat → REnc → Models → Option (REnc × Models)
  | [], e, M => some (e, M)
  | i :: rest, e, M =>
    match encode_bit e (get M (idxOf i ((value >>> i) % 2)))
        ((value >>> i) % 2) with
    | none => none
    | some (e2, m2) =>
      encBitsAt get set idxOf value rest e2
        (set M (idxOf i ((value >>> i) % 2)) m2)

/-- One decoder bit loop: model index `idxOf i`, decoded bit ORed in at
position `shf i`. -/
def decBitsAt (get : Models → Nat → Nat) (set : Models → Nat → Nat → Models)
    (idxOf : Nat → Nat) (shf : Nat → Nat) :
    List Nat → RDec → Models → Nat → Option (RDec × Models × Nat)
  | [], d, M, acc => some (d, M, acc)
  | i :: rest, d, M, acc =>
    match decode_bit d (get M (idxOf i)) with
    | none => none
    | some (d2, bit, m2) =>
      decBitsAt get set idxOf shf rest d2 (set M (idxOf i) m2)
        (acc ||| (bit <<< shf i))

def lowGet (ps : Nat) (M : Models) (i : Nat) : Nat := get2 M.len_low ps i

def lowSet (ps : Nat) (M : Models) (i v : Nat) : Models :=
  ⟨M.is_match, M.is_rep, M.is_rep0, M.is_rep1, M.is_rep0_long, M.lit_models,
   set2 M.len_low ps i v, M.len_mid, M.len_high, M.dist_models⟩

def midGet (ps : Nat) (M : Models) (i : Nat) : Nat := get2 M.len_mid ps i

def midSet (ps : Nat) (M : Models) (i v : Nat) : Models :=
  ⟨M.is_match, M.is_rep, M.is_rep0, M.is_rep1, M.is_rep0_long, M.lit_models,
   M.len_low, set2 M.len_mid ps i v, M.len_high, M.dist_models⟩

def highGet (M : Models) (i : Nat) : Nat := M.len_high.getD i 0

def highSet (M : Models) (i v : Nat) : Models :=
  ⟨M.is_match, M.is_rep, M.is_rep0, M.is_rep1, M.is_rep0_long, M.lit_models,
   M.len_low, M.len_mid, M.len_high.set i v, M.dist_models⟩

/-- `_encode_length`: note the encoder uses model index `(1 << i) + bit`
in the low/mid trees. -/
def encode_length (e : REnc) (M : Models) (len ps : Nat) :
    Option (REnc × Models) :=
  if len - MIN_MATCH < 8 then
    encBitsAt (lowGet ps) (lowSet ps) (fun i bit => (1 <<< i) + bit)
      (len - MIN_MATCH) [0, 1, 2] e M
  else if len - MIN_MATCH < 10 then
    encBitsAt (midGet ps) (midSet ps) (fun i bit => (1 <<< i) + bit)
      (len - MIN_MATCH) [0, 1, 2] e M
  else
    encBitsAt highGet highSet (fun i _ => i) (len - MIN_MATCH)
      [0, 1, 2, 3, 4, 5, 6, 7] e M

/-- `_decode_length`: the decoder reads the low/mid trees at model index
`1 << i` (no `+ bit`). -/
def decode_length (d : RDec) (M : Models) (ps : Nat) :
    Option (RDec × Models × Nat) :=
  match decBitsAt (lowGet ps) (lowSet ps) (fun i => 1 <<< i) (fun i => i)
      [0, 1, 2] d M 0 with
  | none => none
  | some (d1, M1, len1) =>
    if len1 < 8 then some (d1, M1, len1 + MIN_MATCH)
    else
      match decBitsAt (midGet ps) (midSet ps) (fun i => 1 <<< i)
          (fun i => i + 3) [0, 1] d1 M1 len1 with
      | none => none
      | some (d2, M2, len2) =>
        if len2 < 10 then some (d2, M2, len2 + MIN_MATCH)
        else
          match decBitsAt highGet highSet (fun i => i) (fun i => i)
              [0, 1, 2, 3, 4, 5, 6, 7] d2 M2 0 with
          | none => none
          | some (d3, M3, len3) => some (d3, M3, len3 + 10 + MIN_MATCH)

/-! ### Distance coder (`_encode_distance` / `_decode_distance`) -/

def distGet (M : Models) (i : Nat) : Nat := M.dist_models.getD i 0

def distSet (M : Models) (i v : Nat) : Models :=
  ⟨M.is_match, M.is_rep, M.is_rep0, M.is_rep1, M.is_rep0_long, M.lit_models,
   M.len_low, M.len_mid, M.len_high, M.dist_models.set i v⟩

/-- `_encode_distance`: a 2-bit slot for distances up to 4, otherwise 7
bits at models 2.. or 16 bits at models 9... -/
def encode_distance (e : REnc) (M : Models) (distance : Nat) :
    Option (REnc × Models) :=
  if distance ≤ 4 then
    encBitsAt distGet distSet (fun i _ => i) (distance - 1) [0, 1] e M
  else if distance ≤ 127 then
    encBitsAt distGet distSet (fun i _ => i + 2) distance
      [0, 1, 2, 3, 4, 5, 6] e M
  else
    encBitsAt distGet distSet (fun i _ => i + 9) distance
      (List.range 16) e M

/-- `_decode_distance`: reads a 2-bit slot and, because a 2-bit value is
always below 4, returns `slot + 1` from the first branch (the remaining
branches are written in the source but never taken). -/
def decode_distance (d : RDec) (M : Models) : Option (RDec × Models × Nat) :=
  match decBitsAt distGet distSet (fun i => i) (fun i => i) [0, 1] d M 0 with
  | none => none
  | some (d1, M1, slot) =>
    if slot < 4 then some (d1, M1, slot + 1)
    else
      match decBitsAt distGet distSet (fun i => i + 2) (fun i => i)
          [0, 1, 2, 3, 4, 5, 6] d1 M1 0 with
      | none => none
      | some (d2, M2, dist) =>
        if dist ≤ 127 then some (d2, M2, dist + 1)
        else
          match decBitsAt distGet distSet (fun i => i + 9) (fun i => i)
              (List.range 16) d2 M2 0 with
          | none => none
          | some (d3, M3, dist2) => some (d3, M3, dist2 + 128 + 1)

/-! ### `_find_longest_match` -/

/-- The inner comparison loop shared by the rep scan and the new-match
scan: compare `data[src+length]` with `data[pos+length]` from `length`
up, stopping at the data end, a mismatch, or after `fuel` steps. -/
def scanLoop (data : List Nat) (src pos : Nat) :
    Nat → Nat → Nat → Nat
  | 0, _, acc => acc
  | fuel + 1, len, acc =>
    if data.length ≤ pos + len then acc
    else if data.getD (src + len) 0 == data.getD (pos + len) 0 then
      scanLoop data src pos fuel (len + 1) (acc + 1)
    else acc

/-- The rep-candidate loop: a rep match of length ≥ `MIN_MATCH` that
beats the current best is recorded with the negative distance `-(i+1)`. -/
def repLoop (data : List Nat) (pos : Nat) :
    List (Nat × Nat) → Nat × Int → Nat × Int
  | [], best => best
  | (i, rep_dist) :: rest, (max_len, best_dist) =>
    if rep_dist = 0 ∨ pos < rep_dist then
      repLoop data pos rest (max_len, best_dist)
    else
      if MIN_MATCH ≤ scanLoop data (pos - rep_dist) pos MAX_MATCH 0 0 ∧
          max_len < scanLoop data (pos - rep_dist) pos MAX_MATCH 0 0 then
        repLoop data pos rest
          (scanLoop data (pos - rep_dist) pos MAX_MATCH 0 0, -(i + 1 : Int))
      else repLoop data pos rest (max_len, best_dist)

/-- The new-match loop over `match_pos` from the window start: the scan
starts at offset `max_len` and its count is compared against `max_len`
as in the source; on reaching `MAX_MATCH` the loop breaks. -/
def newMatchLoop (data : List Nat) (pos : Nat) :
    Nat → Nat → Nat × Int → Nat × Int
  | 0, _, best => best
  | fuel + 1, match_pos, (max_len, best_dist) =>
    if MIN_MATCH ≤ scanLoop data match_pos pos (MAX_MATCH - max_len)
          max_len 0 ∧
        max_len < scanLoop data match_pos pos (MAX_MATCH - max_len)
          max_len 0 then
      if scanLoop data match_pos pos (MAX_MATCH - max_len) max_len 0 =
          MAX_MATCH then
        (MAX_MATCH, (pos - match_pos : Nat))
      else
        newMatchLoop data pos fuel (match_pos + 1)
          (scanLoop data match_pos pos (MAX_MATCH - max_len) max_len 0,
           (pos - match_pos : Nat))
    else newMatchLoop data pos fuel (match_pos + 1) (max_len, best_dist)

/-- `_find_longest_match`: rep candidates first, then the window scan. -/
def find_longest_match (data : List Nat) (pos : Nat) (reps : List Nat) :
    Nat × Int :=
  newMatchLoop data pos (pos - (pos - WINDOW_SIZE)) (pos - WINDOW_SIZE)
    (repLoop data pos reps.enum (0, 0))

/-! ### Literal coder and model setters -/

def setIsMatch (M : Models) (i j v : Nat) : Models :=
  ⟨set2 M.is_match i j v, M.is_rep, M.is_rep0, M.is_rep1, M.is_rep0_long,
   M.lit_models, M.len_low, M.len_mid, M.len_high, M.dist_models⟩

def setIsRep (M : Models) (i j v : Nat) : Models :=
  ⟨M.is_match, set2 M.is_rep i j v, M.is_rep0, M.is_rep1, M.is_rep0_long,
   M.lit_models, M.len_low, M.len_mid, M.len_high, M.dist_models⟩

def setIsRep0 (M : Models) (i j v : Nat) : Models :=
  ⟨M.is_match, M.is_rep, set2 M.is_rep0 i j v, M.is_rep1, M.is_rep0_long,
   M.lit_models, M.len_low, M.len_mid, M.len_high, M.dist_models⟩

def setIsRep1 (M : Models) (i j v : Nat) : Models :=
  ⟨M.is_match, M.is_rep, M.is_rep0, set2 M.is_rep1 i j v, M.is_rep0_long,
   M.lit_models, M.len_low, M.len_mid, M.len_high, M.dist_models⟩

def setIsRep0Long (M : Models) (i j v : Nat) : Models :=
  ⟨M.is_match, M.is_rep, M.is_rep0, M.is_rep1, set2 M.is_rep0_long i j v,
   M.lit_models, M.len_low, M.len_mid, M.len_high, M.dist_models⟩

/-- The 8-bit MSB-first literal encode loop with its running prefix
context. -/
def encLitBits (lc st byte : Nat) :
    List Nat → Nat → REnc → Models → Option (REnc × Models)
  | [], _, e, M => some (e, M)
  | bp :: rest, pfx, e, M =>
    match encode_bit e (lit3get M lc st pfx) ((byte >>> bp) % 2) with
    | none => none
    | some (e2, m2) =>
      encLitBits lc st byte rest ((pfx <<< 1) ||| ((byte >>> bp) % 2)) e2
        (lit3set M lc st pfx m2)

/-- The 8-bit MSB-first literal decode loop. -/
def decLitBits (lc st : Nat) :
    List Nat → Nat → Nat → RDec → Models → Option (RDec × Models × Nat)
  | [], _, byte, d, M => some (d, M, byte)
  | bp :: rest, pfx, byte, d, M =>
    match decode_bit d (lit3get M lc st pfx) with
    | none => none
    | some (d2, bit, m2) =>
      decLitBits lc st rest ((pfx <<< 1) ||| bit) (byte ||| (bit <<< bp)) d2
        (lit3set M lc st pfx m2)

/-! ### `compress` -/

/-- The state-machine update after a literal. -/
def litState (st : Nat) : Nat :=
  if st < 4 then 0 else if st < 10 then st - 3 else st - 7

/-- The match branch of the `compress` loop (everything after the
`is_match = 1` bit): rep or new match, rep-distance list update, length
and distance coding, state update.  `match_dist < 0` encodes a rep
index. -/
def encodeMatch (pos st : Nat) (M : Models) (reps : List Nat) (e : REnc)
    (match_len : Nat) (match_dist : Int) :
    Option (REnc × Models × List Nat × Nat) :=
  if match_dist < 0 then
    match encode_bit e (get2 M.is_rep (pos % 4) st) 1 with
    | none => none
    | some (e1, m1) =>
      match encode_bit e1 (get2 M.is_rep0 (pos % 4) st)
          (if 0 < (-(match_dist + 1)).toNat then 1 else 0) with
      | none => none
      | some (e2, m2) =>
        match
          (if (-(match_dist + 1)).toNat = 0 then
            (encode_bit e2 (get2 M.is_rep0_long (pos % 4) st)
                (if 1 < match_len then 1 else 0)).map
              (fun p => (p.1, setIsRep0Long
                (setIsRep0 (setIsRep M (pos % 4) st m1) (pos % 4) st m2)
                (pos % 4) st p.2))
          else
            (encode_bit e2 (get2 M.is_rep1 (pos % 4) st)
                (if (-(match_dist + 1)).toNat = 2 then 1 else 0)).map
              (fun p => (p.1, setIsRep1
                (setIsRep0 (setIsRep M (pos % 4) st m1) (pos % 4) st m2)
                (pos % 4) st p.2))) with
        | none => none
        | some (e3, M3) =>
          match encode_length e3 M3 match_len (pos % 4) with
          | none => none
          | some (e4, M4) =>
            some (e4, M4,
              reps.getD (-(match_dist + 1)).toNat 0 ::
                reps.eraseIdx (-(match_dist + 1)).toNat,
              if st < 7 then 10 else 11)
  else
    match encode_bit e (get2 M.is_rep (pos % 4) st) 0 with
    | none => none
    | some (e1, m1) =>
      match encode_length e1 (setIsRep M (pos % 4) st m1) match_len
          (pos % 4) with
      | none => none
      | some (e2, M2) =>
        match encode_distance e2 M2 match_dist.toNat with
        | none => none
        | some (e3, M3) =>
          some (e3, M3, match_dist.toNat :: reps.eraseIdx 3, 7)

/-- The main `while pos < len(data)` loop of `compress`; one fuel unit
per iteration (each iteration advances `pos` by at least one). -/
def compressLoop (data : List Nat) :
    Nat → Nat → Nat → Models → List Nat → REnc → Option REnc
  | 0, pos, _, _, _, e => if pos < data.length then none else some e
  | fuel + 1, pos, st, M, reps, e =>
    if pos < data.length then
      if ¬ MIN_MATCH ≤ (find_longest_match data pos reps).1 ∨
          ((find_longest_match data pos reps).1 = 1 ∧ st < 7) then
        match encode_bit e (get2 M.is_match (pos % 4) st) 0 with
        | none => none
        | some (e1, m1) =>
          match encLitBits
              ((if 0 < pos then data.getD (pos - 1) 0 else 0) >>> 5) st
              (data.getD pos 0) [7, 6, 5, 4, 3, 2, 1, 0] 1 e1
              (setIsMatch M (pos % 4) st m1) with
          | none => none
          | some (e2, M2) =>
            compressLoop data fuel (pos + 1) (litState st) M2 reps e2
      else
        match encode_bit e (get2 M.is_match (pos % 4) st) 1 with
        | none => none
        | some (e1, m1) =>
          match encodeMatch pos st (setIsMatch M (pos % 4) st m1) reps e1
              (find_longest_match data pos reps).1
              (find_longest_match data pos reps).2 with
          | none => none
          | some (e3, M3, reps3, st3) =>
            compressLoop data fuel (pos + (find_longest_match data pos reps).1)
              st3 M3 reps3 e3
    else some e

/-- `LZMACompressor.compress`: `b'LZMA'`, the `u64` original size, and
the range-coded stream. -/
def compress (data : List Nat) : Option (List Nat) :=
  if data.length = 0 then some ([76, 90, 77, 65] ++ Format.le64 0)
  else
    match compressLoop data data.length 0 0 initModels [1, 1, 1, 1]
        REnc.init with
    | none => none
    | some e =>
      match finish e with
      | none => none
      | some comp =>
        some ([76, 90, 77, 65] ++ Format.le64 data.length ++ comp)

/-! ### `decompress` -/

/-- The rep-index decode (`is_rep0`, then `is_rep0_long` or `is_rep1`)
of the decompress match branch. -/
def decodeRepIdx (pos st : Nat) (d : RDec) (M : Models) :
    Option (RDec × Models × Nat) :=
  match decode_bit d (get2 M.is_rep0 (pos % 4) st) with
  | none => none
  | some (d1, bit_rep0, m0) =>
    if bit_rep0 = 0 then
      match decode_bit d1 (get2 M.is_rep0_long (pos % 4) st) with
      | none => none
      | some (d2, _, mlong) =>
        some (d2, setIsRep0Long (setIsRep0 M (pos % 4) st m0) (pos % 4) st
          mlong, 0)
    else
      match decode_bit d1 (get2 M.is_rep1 (pos % 4) st) with
      | none => none
      | some (d2, bit_rep1, m1) =>
        some (d2, setIsRep1 (setIsRep0 M (pos % 4) st m0) (pos % 4) st m1,
          if bit_rep1 = 0 then 1 else 2)

/-- The match copy loop: stops at `original_size`, raises (`none`) when
`copy_idx = len(result) - distance` falls outside the output built so
far. -/
def copyLoop (orig distance : Nat) : Nat → List Nat → Option (List Nat)
  | 0, result => some result
  | n + 1, result =>
    if orig ≤ result.length then some result
    else if result.length < distance ∨ distance = 0 then none
    else
      copyLoop orig distance n
        (result ++ [result.getD (result.length - distance) 0])

/-- The main `while len(result) < original_size` loop of `decompress`;
each iteration appends at least one byte or exits, so `orig + 1` fuel
units suffice. -/
def decompressLoop (orig : Nat) :
    Nat → List Nat → Nat → Models → List Nat → RDec → Option (List Nat)
  | 0, _, _, _, _, _ => none
  | fuel + 1, result, st, M, reps, d =>
    if orig ≤ result.length then some result
    else
      match decode_bit d (get2 M.is_match (result.length % 4) st) with
      | none => none
      | some (d1, match_bit, mm) =>
        if match_bit = 0 then
          match decLitBits
              ((if 0 < result.length then
                  result.getD (result.length - 1) 0 else 0) >>> 5) st
              [7, 6, 5, 4, 3, 2, 1, 0] 1 0 d1
              (setIsMatch M (result.length % 4) st mm) with
          | none => none
          | some (d2, M2, byte) =>
            if d2.data.length ≤ d2.pos ∧ (result ++ [byte]).length < orig then
              some (result ++ [byte])
            else
              decompressLoop orig fuel (result ++ [byte]) (litState st) M2
                reps d2
        else
          match decode_bit d1 (get2 M.is_rep (result.length % 4) st) with
          | none => none
          | some (d2, rep_bit, mr) =>
            if rep_bit = 1 then
              match decodeRepIdx result.length st d2
                  (setIsRep (setIsMatch M (result.length % 4) st mm)
                    (result.length % 4) st mr) with
              | none => none
              | some (d3, M3, rep_idx) =>
                match decode_length d3 M3 (result.length % 4) with
                | none => none
                | some (d4, M4, match_len) =>
                  match copyLoop orig
                      ((reps.getD rep_idx 0 :: reps.eraseIdx rep_idx).getD
                        0 0) match_len result with
                  | none => none
                  | some result2 =>
                    if d4.data.length ≤ d4.pos ∧ result2.length < orig then
                      some result2
                    else
                      decompressLoop orig fuel result2
                        (if st < 7 then 10 else 11) M4
                        (reps.getD rep_idx 0 :: reps.eraseIdx rep_idx) d4
            else
              match decode_length d2
                  (setIsRep (setIsMatch M (result.length % 4) st mm)
                    (result.length % 4) st mr) (result.length % 4) with
              | none => none
              | some (d3, M3, match_len) =>
                match decode_distance d3 M3 with
                | none => none
                | some (d4, M4, mdist) =>
                  match copyLoop orig
                      (((if mdist = 0 then 1 else mdist) ::
                        reps.eraseIdx 3).getD 0 0) match_len result with
                  | none => none
                  | some result2 =>
                    if d4.data.length ≤ d4.pos ∧ result2.length < orig then
                      some result2
                    else
                      decompressLoop orig fuel result2 7 M4
                        ((if mdist = 0 then 1 else mdist) ::
                          reps.eraseIdx 3) d4

/-- `LZMACompressor.decompress`: header check, `u64` original size, then
the state machine; the final result is truncated to the original size. -/
def decompress (data : List Nat) : Option (List Nat) :=
  if data.take 4 ≠ [76, 90, 77, 65] ∨ data.length < 12 then some []
  else
    match Format.readU64at data 4 with
    | none => none
    | some orig =>
      if orig = 0 then some []
      else
        match decompressLoop orig (orig + 1) [] 0 initModels [1, 1, 1, 1]
            (RDec.init (data.drop 12)) with
        | none => none
        | some result => some (result.take orig)

/-! ### Claims C1, C6, C10 -/

theorem decode_bit_le_one (d : RDec) (m : Nat) (d2 : RDec) (b m2 : Nat)
    (h : decode_bit d m = some (d2, b, m2)) : b ≤ 1 := by
  rw [decode_bit] at h
  split at h
  · cases hn : decNormLoop 40 ⟨d.data, d.pos, (d.range >>> 11) * m,
        d.code⟩ with
    | none => rw [hn] at h; cases h
    | some x =>
      rw [hn] at h
      simp only [Option.map] at h
      injection h with h
      injection h with h1 h2
      injection h2 with h3 h4
      omega
  · cases hn : decNormLoop 40 ⟨d.data, d.pos,
        d.range - (d.range >>> 11) * m,
        d.code - (d.range >>> 11) * m⟩ with
    | none => rw [hn] at h; cases h
    | some x =>
      rw [hn] at h
      simp only [Option.map] at h
      injection h with h
      injection h with h1 h2
      injection h2 with h3 h4
      omega

theorem decBitsAt_two_lt (get : Models → Nat → Nat)
    (set : Models → Nat → Nat → Models) (d : RDec) (M : Models)
    (r : RDec × Models × Nat)
    (h : decBitsAt get set (fun i => i) (fun i => i) [0, 1] d M 0 =
      some r) : r.2.2 < 4 := by
  rw [decBitsAt] at h
  cases h1 : decode_bit d (get M 0) with
  | none => rw [h1] at h; cases h
  | some x =>
    obtain ⟨d1, b1, m1⟩ := x
    rw [h1] at h
    simp only [] at h
    rw [decBitsAt] at h
    cases h2 : decode_bit d1 (get (set M 0 m1) 1) with
    | none => rw [h2] at h; cases h
    | some y =>
      obtain ⟨d2, b2, m2⟩ := y
      rw [h2] at h
      simp only [] at h
      rw [decBitsAt] at h
      injection h with h
      have hb1 := decode_bit_le_one d (get M 0) d1 b1 m1 h1
      have hb2 := decode_bit_le_one d1 (get (set M 0 m1) 1) d2 b2 m2 h2
      rw [← h]
      rcases Nat.le_one_iff_eq_zero_or_eq_one.mp hb1 with rfl | rfl <;>
        rcases Nat.le_one_iff_eq_zero_or_eq_one.mp hb2 with rfl | rfl <;>
        simp

/-- C10: `_decode_distance` always takes the `slot < 4` branch (a 2-bit
slot cannot reach 4) and returns `slot + 1 ≥ 1`; the defensive remap of a
decoded distance 0 to 1 in `decompress` (lines 567-568) is therefore
unreachable. -/
theorem decode_distance_ge_one (d : RDec) (M : Models)
    (r : RDec × Models × Nat) (h : decode_distance d M = some r) :
    1 ≤ r.2.2 := by
  rw [decode_distance] at h
  cases hdl : decBitsAt distGet distSet (fun i => i) (fun i => i) [0, 1]
      d M 0 with
  | none => rw [hdl] at h; cases h
  | some x =>
    obtain ⟨d1, M1, slot⟩ := x
    have hx := decBitsAt_two_lt distGet distSet d M (d1, M1, slot) hdl
    rw [hdl] at h
    simp only [] at h
    rw [if_pos hx] at h
    injection h with h
    rw [← h]
    exact Nat.le_add_left 1 slot

theorem decode_distance_ge_one_witness :
    1 ≤ ((decode_distance (RDec.init [0, 0, 0, 0, 0]) initModels).getD
      (RDec.init [], initModels, 0)).2.2 :=
  decode_distance_ge_one (RDec.init [0, 0, 0, 0, 0]) initModels
    ((decode_distance (RDec.init [0, 0, 0, 0, 0]) initModels).getD
      (RDec.init [], initModels, 0)) (by rfl)

/-- C6: the range coder is not symmetric.  Encoding the bit sequence
1, 0 through a single adaptive model slot initialized to 1024 produces
the bytes 253, 0, 0, 0 and the final model value 1025; decoding two bits
from those bytes under the identically initialized model yields the bits
1, 1 and the final model value 961.  (The encoder never emits the first
shifted-out byte because `cache` starts at -1, the `cache += 1` branch
fires on any 0xFF top byte even without a carry, and the decoder
preloads five bytes into an unmasked `code`.) -/
theorem range_coder_desync :
    rcEncode [1, 0] 1024 = some ([253, 0, 0, 0], 1025) ∧
    (rcDecodeBits 2 (RDec.init [253, 0, 0, 0]) 1024).map
      (fun r => (r.1, r.2.2)) = some ([1, 1], 961) :=
  ⟨rfl, rfl⟩

/-- C1: the bespoke LZMA backend does not round-trip.  Compressing the
single byte 1 succeeds (a literal is encoded), but the decompressor,
desynchronized by the range-coder asymmetry of C6, reads `is_match` = 1
and `is_rep` = 1 and enters the rep-match copy loop with distance 1 on
an empty output, where `copy_idx = -1` raises `ValueError` (`none`):
`decompress(compress(b'\x01'))` is an error, not `b'\x01'`. -/
theorem lzma_roundtrip_fails :
    compress [1] = some [76, 90, 77, 65, 1, 0, 0, 0, 0, 0, 0, 0,
      127, 254, 0, 0, 0, 0] ∧
    decompress [76, 90, 77, 65, 1, 0, 0, 0, 0, 0, 0, 0,
      127, 254, 0, 0, 0, 0] = none :=
  ⟨rfl, rfl⟩

end Lzma
